import Mathlib

/-
Verification development for the OpenReview filter-search ingestion pipeline.

Shallow embedding of:
  - src/app/services/openreview_client.py  (normalizer `summarize`, `parse_rating`,
    `extract_keywords`, paginated `fetch_notes`)
  - src/services/arxiv_matcher.py          (`normalize_title`, `find_arxiv_match`)
  - src/app/ingest.py + src/app/models.py  (`ingest_group` over an in-memory store)

Conventions:
  - Python dynamic values appearing in note contents are modelled by `Value`
    (None, str, int, list, dict).  Dicts are association lists; lookup takes
    the first matching key (Python dicts have unique keys).
  - Machine floats from the source are modelled as rationals.
  - Timestamps are integers (seconds); `datetime.utcnow()` is modelled by a
    single `now` parameter per ingestion call.
  - Network calls are modelled by explicit function parameters (the page
    server for `fetch_notes`, the candidate list and the SequenceMatcher
    ratio for the arXiv matcher, the matcher itself for `ingest_group`).
-/

/-- Python runtime values that appear in OpenReview note contents. -/
inductive Value where
  | vNone : Value
  | vStr (s : String) : Value
  | vInt (n : Int) : Value
  | vList (vs : List Value) : Value
  | vDict (kvs : List (String × Value)) : Value

/-- Python truthiness of a `Value` (used for `x or y` and `if x:`). -/
def truthy : Value → Bool
  | .vNone => false
  | .vStr s => s != ""
  | .vInt n => n != 0
  | .vList vs => !vs.isEmpty
  | .vDict kvs => !kvs.isEmpty

/-- Python `a or b`: `a` if truthy, else `b`. -/
def pyOr (a b : Value) : Value := if truthy a then a else b

/-- `d.get(k)`: value of first matching key, `None` if missing. -/
def getV (d : List (String × Value)) (k : String) : Value :=
  match d.find? (fun kv => kv.1 == k) with
  | some kv => kv.2
  | none => .vNone

/-- `k in d` for a Python dict. -/
def hasKey (d : List (String × Value)) (k : String) : Bool :=
  d.any (fun kv => kv.1 == k)

/-- A single-quote character, for Python `repr` of strings. -/
def pyQuote : String := String.singleton (Char.ofNat 39)

/-- Python `repr` of a `Value` (ASCII approximation, used only via `str`). -/
def pyRepr : Value → String
  | .vNone => "None"
  | .vStr s => pyQuote ++ s ++ pyQuote
  | .vInt n => toString n
  | .vList vs => "[" ++ String.intercalate ", " (vs.attach.map (fun v => pyRepr v.1)) ++ "]"
  | .vDict kvs =>
      "\x7b" ++ String.intercalate ", "
        (kvs.attach.map (fun kv => pyQuote ++ kv.1.1 ++ pyQuote ++ ": " ++ pyRepr kv.1.2)) ++ "\x7d"
decreasing_by
  · have := List.sizeOf_lt_of_mem v.2
    simp only [Value.vList.sizeOf_spec]
    omega
  · have h1 := List.sizeOf_lt_of_mem kv.2
    have h2 : sizeOf kv.1.2 < sizeOf kv.1 := by
      cases kv.1
      simp
    simp only [Value.vDict.sizeOf_spec]
    omega

/-- Python `str` of a `Value`. -/
def pyStr : Value → String
  | .vStr s => s
  | v => pyRepr v

/-- ASCII lowercase of a string (Python `str.lower` restricted to ASCII). -/
def lowerStr (s : String) : String := String.mk (s.data.map Char.toLower)

/-- Does `hay` start with `needle`? -/
def startsWithChars : List Char → List Char → Bool
  | [], _ => true
  | _ :: _, [] => false
  | a :: as, b :: bs => a == b && startsWithChars as bs

/-- Does `hay` contain `needle` as a contiguous run? -/
def containsChars (needle : List Char) : List Char → Bool
  | [] => needle.isEmpty
  | c :: t => startsWithChars needle (c :: t) || containsChars needle t

/-- `needle in hay` on Python strings (contiguous substring test). -/
def strContains (hay needle : String) : Bool := containsChars needle.data hay.data

/- ---------------------------------------------------------------------
   openreview_client.py : parse_rating
   --------------------------------------------------------------------- -/

/-- The scanning loop of `parse_rating`: collect digits plus at most one
decimal point; once the buffer is nonempty, stop at the first character
that is not collected.  Mirrors
`for ch in s: if ch.isdigit() or (ch == "." and "." not in buf): buf += ch
 elif buf: break`. -/
def ratingBuf : List Char → List Char → List Char
  | [], buf => buf
  | c :: cs, buf =>
    if c.isDigit || (c == '.' && !buf.contains '.') then ratingBuf cs (buf ++ [c])
    else if !buf.isEmpty then buf
    else ratingBuf cs buf

/-- Digit run to a natural number (`int` semantics of the digits). -/
def digitsToNat (cs : List Char) : Nat :=
  cs.foldl (fun n c => 10 * n + (c.toNat - 48)) 0

/-- Python `float(buf)` for a nonempty buffer of digits with at most one
dot; `float(".")` raises, which `parse_rating` converts to `None`. -/
def floatOfBuf (buf : List Char) : Option ℚ :=
  if buf.contains '.' then
    let a := buf.takeWhile (fun c => c != '.')
    let b := (buf.dropWhile (fun c => c != '.')).tail
    if a.isEmpty && b.isEmpty then none
    else some ((digitsToNat a : ℚ) + (digitsToNat b : ℚ) / (10 ^ b.length))
  else some (digitsToNat buf)

/-- `parse_rating` from openreview_client.py: `None` for `None`, direct
conversion for numbers, otherwise scan the `str` form for a numeric token;
unparsable values yield `None`. -/
def parse_rating (v : Value) : Option ℚ :=
  match v with
  | .vNone => none
  | .vInt n => some (n : ℚ)
  | _ =>
    let buf := ratingBuf (pyStr v).data []
    if buf.isEmpty then none else floatOfBuf buf

/- ---------------------------------------------------------------------
   openreview_client.py : extract_keywords
   --------------------------------------------------------------------- -/

/-- Ordered key variants probed by `extract_keywords`. -/
def keywordKeys : List String := ["keywords", "Keywords", "key_areas", "Key Areas", "Key Area(s)"]

/-- `extract_keywords`: first present key wins; list values are stringified
and trimmed, string values are split on commas/semicolons with empty tokens
dropped; a present key of any other type falls through to the next variant. -/
def extractKeywordsGo (content : List (String × Value)) : List String → List String
  | [] => []
  | k :: ks =>
    if hasKey content k then
      match getV content k with
      | .vList vs => vs.map (fun v => (pyStr v).trim)
      | .vStr s => (((s.replace ";" ",").splitOn ",").map String.trim).filter (fun t => t != "")
      | _ => extractKeywordsGo content ks
    else extractKeywordsGo content ks

/-- `extract_keywords` from openreview_client.py. -/
def extract_keywords (content : List (String × Value)) : List String :=
  extractKeywordsGo content keywordKeys

/- ---------------------------------------------------------------------
   openreview_client.py : summarize
   --------------------------------------------------------------------- -/

/-- A nested direct reply of a raw note (`details.directReplies` entry):
its `invitation` string and its `content` dict. -/
structure Reply where
  invitation : String
  content : List (String × Value)

/-- A raw note as consumed by `summarize`; `forum`/`id` may be missing
(`vNone`), the content and direct replies are dicts. -/
structure RawNote where
  forum : Value
  id : Value
  content : List (String × Value)
  directReplies : List Reply

/-- The `SubmissionSummary` dataclass as actually populated by `summarize`
(Python does not enforce the `str` annotations, so the schema-tolerant
fields keep their dynamic `Value` type). -/
structure SubmissionSummary where
  forum : Value
  note : Value
  title : Value
  abstract : Value
  authors : String
  keywords : List String
  decision : Option String
  avg_rating : Option ℚ
  num_reviews : Nat

/-- The trigger condition for decision extraction:
`"Decision" in invitation or any(k.lower() == "decision" for k in rcontent)`. -/
def decisionTrigger (r : Reply) : Bool :=
  strContains r.invitation "Decision" || r.content.any (fun kv => lowerStr kv.1 == "decision")

/-- The raw decision value probed when the trigger fires:
`rcontent.get("decision") or rcontent.get("Decision") or rcontent.get("recommendation")`. -/
def decisionRaw (r : Reply) : Value :=
  pyOr (getV r.content "decision") (pyOr (getV r.content "Decision") (getV r.content "recommendation"))

/-- Unwrap a `{value: ...}` dict wrapper, as in
`if isinstance(dv, dict) and "value" in dv: dv = dv["value"]`. -/
def unwrapValue : Value → Value
  | .vDict kvs => if hasKey kvs "value" then getV kvs "value" else .vDict kvs
  | v => v

/-- The decision contributed by one direct reply, if any: trigger must fire
and the unwrapped probed value must be truthy; the contribution is its
`str` form. -/
def decisionOf (r : Reply) : Option String :=
  if decisionTrigger r then
    let dv := unwrapValue (decisionRaw r)
    if truthy dv then some (pyStr dv) else none
  else none

/-- Rating samples contributed by one reply: every content key containing
`"rating"` (case-insensitively) is parsed by `parse_rating`; failures are
skipped. -/
def ratingsOf (r : Reply) : List ℚ :=
  r.content.filterMap (fun kv => if strContains (lowerStr kv.1) "rating" then parse_rating kv.2 else none)

/-- One iteration of the reply loop in `summarize`: update the running
decision (a contributing reply overwrites it) and append rating samples. -/
def replyStep (acc : Option String × List ℚ) (r : Reply) : Option String × List ℚ :=
  (match decisionOf r with
   | some d => some d
   | none => acc.1,
   acc.2 ++ ratingsOf r)

/-- `summarize` from openreview_client.py. -/
def summarize (note : RawNote) : SubmissionSummary :=
  let content := note.content
  let title := pyOr (getV content "title") (pyOr (getV content "Title") (.vStr ""))
  let abstract := pyOr (getV content "abstract") (getV content "Abstract")
  let authorsV := pyOr (getV content "authors") (pyOr (getV content "Authors") (.vList []))
  let authors_str :=
    match authorsV with
    | .vList vs => String.intercalate "; " (vs.map pyStr)
    | v => pyStr v
  let keywords := extract_keywords content
  let dr := note.directReplies.foldl replyStep (none, [])
  { forum := pyOr note.forum note.id
    note := note.id
    title := title
    abstract := abstract
    authors := authors_str
    keywords := keywords
    decision := dr.1
    avg_rating := if dr.2.isEmpty then none else some (dr.2.sum / (dr.2.length : ℚ))
    num_reviews := dr.2.length }

example : parse_rating (.vStr "7: Good") = some 7 := by decide
example : parse_rating (.vStr "3") = some 3 := by decide
example : parse_rating (.vStr "N/A") = none := by decide

/- ---------------------------------------------------------------------
   openreview_client.py : fetch_notes (pagination)
   --------------------------------------------------------------------- -/

/-- The fixed page size of `fetch_notes`. -/
def page_size : Nat := 200

/-- `fetch_notes` from openreview_client.py.  The remote notes endpoint is
modelled as `server limit offset`, the list of records a request with those
parameters returns.  The loop collects pages from the given offset,
advancing by the number of records returned, and stops on an empty page or
a page shorter than `page_size`.  `fuel` bounds the number of requests
observed (the source loop is `while True`); the second component lists the
`(limit, offset)` pairs requested, in order. -/
def fetch_notes {a : Type} (server : Nat -> Nat -> List a) : Nat -> Nat -> List a × List (Nat × Nat)
  | 0, _ => ([], [])
  | fuel + 1, offset =>
    let notes := server page_size offset
    if notes.isEmpty then ([], [(page_size, offset)])
    else if notes.length < page_size then (notes, [(page_size, offset)])
    else
      let r := fetch_notes server fuel (offset + notes.length)
      (notes ++ r.1, (page_size, offset) :: r.2)

/- ---------------------------------------------------------------------
   arxiv_matcher.py : normalize_title / find_arxiv_match
   --------------------------------------------------------------------- -/

/-- ASCII whitespace, matching Python `str.isspace` on ASCII input. -/
def pyIsSpace (c : Char) : Bool :=
  c == ' ' || c.toNat == 9 || c.toNat == 10 || c.toNat == 13 || c.toNat == 11 || c.toNat == 12

/-- Python `str.split()` with no separator: split on whitespace runs,
dropping empty tokens.  `acc` is the current token, reversed. -/
def pySplitAux : List Char -> List Char -> List String
  | [], [] => []
  | [], acc => [String.mk acc.reverse]
  | c :: cs, acc =>
    if pyIsSpace c then
      match acc with
      | [] => pySplitAux cs []
      | _ => String.mk acc.reverse :: pySplitAux cs []
    else pySplitAux cs (c :: acc)

/-- `normalize_title` from arxiv_matcher.py: keep alphanumeric and
whitespace characters, lowercase, collapse whitespace runs to single
spaces. -/
def normalize_title (s : String) : String :=
  String.intercalate " "
    (pySplitAux ((s.data.filter (fun c => c.isAlphanum || pyIsSpace c)).map Char.toLower) [])

/-- `similarity` from arxiv_matcher.py, parameterized by the character
sequence-matching ratio (difflib SequenceMatcher, external to the repo):
the ratio of the two normalized titles. -/
def similarity (ratio : String -> String -> ℚ) (a b : String) : ℚ :=
  ratio (normalize_title a) (normalize_title b)

/-- The result quadruple of `find_arxiv_match`:
`(arxiv_id, arxiv_title, exact, score)`. -/
structure MatchRes where
  arxiv_id : Option String
  title : Option String
  exactMatch : Bool
  score : ℚ
deriving DecidableEq

/-- The candidate loop of `find_arxiv_match`, also counting how many
candidates were examined: return the first exact normalized-title match
with score 1, otherwise keep the best fuzzy candidate, replaced only on a
strictly greater score. -/
def matchLoop (ratio : String -> String -> ℚ) (title nt : String) :
    MatchRes -> Nat -> List (String × String) -> MatchRes × Nat
  | best, ex, [] => (best, ex)
  | best, ex, (aid, atitle) :: rest =>
    if normalize_title atitle = nt then (⟨some aid, some atitle, true, 1⟩, ex + 1)
    else
      let s := similarity ratio title atitle
      if best.score < s then matchLoop ratio title nt ⟨some aid, some atitle, false, s⟩ (ex + 1) rest
      else matchLoop ratio title nt best (ex + 1) rest

/-- `find_arxiv_match` from arxiv_matcher.py, with the arXiv query results
passed in as `candidates` (list of `(arxiv_id, title)`) and the sequence
ratio abstracted; additionally returns the number of candidates examined. -/
def find_arxiv_match_core (ratio : String -> String -> ℚ) (title : String)
    (candidates : List (String × String)) : MatchRes × Nat :=
  if candidates.isEmpty then (⟨none, none, false, 0⟩, 0)
  else matchLoop ratio title (normalize_title title) ⟨none, none, false, 0⟩ 0 candidates

/-- The result quadruple of `find_arxiv_match` proper. -/
def find_arxiv_match (ratio : String -> String -> ℚ) (title : String)
    (candidates : List (String × String)) : MatchRes :=
  (find_arxiv_match_core ratio title candidates).1

example : normalize_title "Foo   Bar!" = "foo bar" := by decide
example : normalize_title "foo   bar" = normalize_title "Foo Bar" := by decide

/- ---------------------------------------------------------------------
   models.py + ingest.py : the store and ingest_group
   --------------------------------------------------------------------- -/

/-- The well-typed view of a `SubmissionSummary` as declared by the
dataclass annotations (`forum: str`, etc.); this is the shape `ingest.py`
relies on when writing summaries into the store. -/
structure Summary where
  forum : String
  note : String
  title : String
  abstract : Option String
  authors : String
  keywords : List String
  decision : Option String
  avg_rating : Option ℚ
  num_reviews : Nat
deriving DecidableEq

/-- A `venues` row (models.py `Venue`). -/
structure VenueRec where
  id : Nat
  group_id : String
  name : String
  year : Option Int
  added_at : Int
deriving DecidableEq

/-- A `papers` row (models.py `Paper`). -/
structure PaperRec where
  id : Nat
  venue_id : Nat
  openreview_forum : String
  openreview_note : String
  title : String
  abstract : Option String
  authors : Option String
  keywords : Option String
  decision : Option String
  avg_rating : Option ℚ
  num_reviews : Nat
  last_refreshed : Int
deriving DecidableEq

/-- An `arxiv_matches` row (models.py `ArxivMatch`); surrogate id omitted. -/
structure MatchRec where
  paper_id : Nat
  arxiv_id : String
  title : String
  exactMatch : Bool
  score : ℚ
  matched_at : Int
deriving DecidableEq

/-- The local store: table contents in insertion order, plus the next
autoincrement ids for venues and papers. -/
structure DB where
  venues : List VenueRec
  papers : List PaperRec
  arxiv_matches : List MatchRec
  next_venue_id : Nat
  next_paper_id : Nat
deriving DecidableEq

/-- A store with no rows. -/
def emptyDB : DB := ⟨[], [], [], 1, 1⟩

/-- `", ".join(summary.keywords or [])` (for a list, `or []` is the
identity). -/
def joinKeywords (ks : List String) : String := String.intercalate ", " ks

/-- A fresh `Paper` row built from a summary (the insert branch of the
upsert in ingest.py step 2). -/
def mkPaper (vid nid : Nat) (s : Summary) (now : Int) : PaperRec :=
  { id := nid
    venue_id := vid
    openreview_forum := s.forum
    openreview_note := s.note
    title := s.title
    abstract := s.abstract
    authors := some s.authors
    keywords := some (joinKeywords s.keywords)
    decision := s.decision
    avg_rating := s.avg_rating
    num_reviews := s.num_reviews
    last_refreshed := now }

/-- The update branch of the upsert: overwrite the denormalized fields and
bump `last_refreshed`; ids, venue, forum and note are not assigned. -/
def overwrite (p : PaperRec) (s : Summary) (now : Int) : PaperRec :=
  { p with
    title := s.title
    abstract := s.abstract
    authors := some s.authors
    keywords := some (joinKeywords s.keywords)
    decision := s.decision
    avg_rating := s.avg_rating
    num_reviews := s.num_reviews
    last_refreshed := now }

/-- Update the first list element whose forum matches `f` (the row
`db.scalar` returns for the forum filter), leaving the rest unchanged. -/
def updateFirst (f : String) (upd : PaperRec -> PaperRec) : List PaperRec -> List PaperRec
  | [] => []
  | p :: ps => if p.openreview_forum = f then upd p :: ps else p :: updateFirst f upd ps

/-- The paper loop of ingest.py step 2: for each summary look up the first
`Paper` with that forum id (the query has no venue filter); insert a fresh
row if absent, otherwise overwrite in place.  `nid` is the next paper id. -/
def upsertAll (vid : Nat) (now : Int) : List PaperRec -> Nat -> List Summary -> List PaperRec × Nat
  | papers, nid, [] => (papers, nid)
  | papers, nid, s :: rest =>
    if papers.any (fun p => p.openreview_forum == s.forum) then
      upsertAll vid now (updateFirst s.forum (fun p => overwrite p s now) papers) nid rest
    else
      upsertAll vid now (papers ++ [mkPaper vid nid s now]) (nid + 1) rest

/-- The most recent `ArxivMatch` row for a paper:
`select(ArxivMatch).where(paper_id == p.id).order_by(matched_at.desc())`,
first row.  On a tie the earliest-inserted row is kept. -/
def latestMatch (ms : List MatchRec) (pid : Nat) : Option MatchRec :=
  (ms.filter (fun m => m.paper_id == pid)).foldl
    (fun acc m =>
      match acc with
      | none => some m
      | some b => if b.matched_at < m.matched_at then some m else some b)
    none

/-- `atitle or p.title`: the match row title falls back to the paper title
when the matcher returned no (or an empty) title. -/
def strOr (a : Option String) (b : String) : String :=
  match a with
  | some s => if s = "" then b else s
  | none => b

/-- A cache miss in ingest.py step 3: invoke the matcher on the paper
title and insert a row only when the returned id is truthy (non-empty);
the invocation is recorded either way. -/
def matchMiss (matcher : String -> MatchRes) (now : Int) (p : PaperRec)
    (ms : List MatchRec) (inv : List Nat) : List MatchRec × List Nat :=
  let r := matcher p.title
  match r.arxiv_id with
  | some aid =>
    if aid = "" then (ms, inv ++ [p.id])
    else (ms ++ [⟨p.id, aid, strOr r.title p.title, r.exactMatch, r.score, now⟩], inv ++ [p.id])
  | none => (ms, inv ++ [p.id])

/-- The body of the step-3 loop for one paper: skip it when its most
recent match is fresher than the deadline (cache hit), otherwise run the
miss case. -/
def matchStep1 (matcher : String -> MatchRes) (now deadline : Int) (p : PaperRec)
    (ms : List MatchRec) (inv : List Nat) : List MatchRec × List Nat :=
  match latestMatch ms p.id with
  | some m => if deadline < m.matched_at then (ms, inv) else matchMiss matcher now p ms inv
  | none => matchMiss matcher now p ms inv

/-- The matching loop of ingest.py step 3 over the venue papers.  Also
returns the ids of papers for which the matcher was invoked. -/
def matchPhaseAux (matcher : String -> MatchRes) (now deadline : Int) :
    List PaperRec -> List MatchRec -> List Nat -> List MatchRec × List Nat
  | [], ms, inv => (ms, inv)
  | p :: rest, ms, inv =>
    matchPhaseAux matcher now deadline rest
      (matchStep1 matcher now deadline p ms inv).1
      (matchStep1 matcher now deadline p ms inv).2

/-- Step 3 of `ingest_group`: `deadline = utcnow() - timedelta(seconds=ttl)`,
then the per-paper cache policy over every paper of the venue. -/
def matchPhase (matcher : String -> MatchRes) (now ttl : Int)
    (papers : List PaperRec) (ms : List MatchRec) : List MatchRec × List Nat :=
  matchPhaseAux matcher now (now - ttl) papers ms []

/-- `name or group_id.split("/")[0]`: the venue display-name default. -/
def defaultName (name : Option String) (group_id : String) : String :=
  match name with
  | some s => if s = "" then (group_id.splitOn "/").headD "" else s
  | none => (group_id.splitOn "/").headD ""

/-- The default arXiv match-cache TTL in seconds (config.py: 14 days). -/
def default_arxiv_ttl : Int := 14 * 24 * 3600

/-- Result of one `ingest_group` call: the store, the returned count, and
the ids of papers for which `find_arxiv_match` was invoked. -/
structure IngestResult where
  db : DB
  count : Nat
  invoked : List Nat
deriving DecidableEq

/-- `ingest_group` from ingest.py.  The fetched submissions are passed in
(`fetch_submissions_for_group` is a network call), the matcher is the
composed network matcher `find_arxiv_match`, `now` stands for
`datetime.utcnow()` during this call and `ttl` for `settings.arxiv_ttl`.
Step 1 finds or creates the `Venue` row for the group id; step 2 upserts a
`Paper` per summary (keyed by forum only); step 3, when enabled, applies
the match-cache policy to every paper of the venue. -/
def ingest_group (db : DB) (group_id : String) (name : Option String) (year : Option Int)
    (submissions : List Summary) (with_arxiv : Bool) (matcher : String -> MatchRes)
    (now ttl : Int) : IngestResult :=
  let found := db.venues.find? (fun v => v.group_id == group_id)
  let vid := match found with
    | some v => v.id
    | none => db.next_venue_id
  let venues := match found with
    | some _ => db.venues
    | none => db.venues ++ [⟨db.next_venue_id, group_id, defaultName name group_id, year, now⟩]
  let nvid := match found with
    | some _ => db.next_venue_id
    | none => db.next_venue_id + 1
  let up := upsertAll vid now db.papers db.next_paper_id submissions
  let count := submissions.length
  if with_arxiv then
    let vpapers := up.1.filter (fun p => p.venue_id == vid)
    let mp := matchPhase matcher now ttl vpapers db.arxiv_matches
    ⟨⟨venues, up.1, mp.1, nvid, up.2⟩, count, mp.2⟩
  else
    ⟨⟨venues, up.1, db.arxiv_matches, nvid, up.2⟩, count, []⟩

/- ---------------------------------------------------------------------
   Helper lemmas : summarize reply loop
   --------------------------------------------------------------------- -/

theorem getLast?_cons_eq {a : Type} (x : a) (l : List a) :
    (x :: l).getLast? = (match l.getLast? with | some y => some y | none => some x) := by
  cases l with
  | nil => rfl
  | cons b t =>
    rw [List.getLast?_cons_cons]
    cases h : (b :: t).getLast? with
    | none => exact absurd (List.getLast?_eq_none_iff.mp h) (by simp)
    | some y => rfl

theorem foldl_replyStep_fst (rs : List Reply) (acc : Option String × List ℚ) :
    (rs.foldl replyStep acc).1 =
      (match (rs.filterMap decisionOf).getLast? with
       | some d => some d
       | none => acc.1) := by
  induction rs generalizing acc with
  | nil => rfl
  | cons r rest ih =>
    simp only [List.foldl_cons, List.filterMap_cons]
    cases h : decisionOf r with
    | none =>
      rw [ih]
      have : (replyStep acc r).1 = acc.1 := by simp [replyStep, h]
      cases hrest : (rest.filterMap decisionOf).getLast? <;> simp [this]
    | some d =>
      rw [ih]
      have h1 : (replyStep acc r).1 = some d := by simp [replyStep, h]
      rw [getLast?_cons_eq]
      cases hrest : (rest.filterMap decisionOf).getLast? <;> simp [h1]

theorem foldl_replyStep_snd (rs : List Reply) (acc : Option String × List ℚ) :
    (rs.foldl replyStep acc).2 = acc.2 ++ rs.flatMap ratingsOf := by
  induction rs generalizing acc with
  | nil => simp
  | cons r rest ih =>
    simp only [List.foldl_cons, List.flatMap_cons]
    rw [ih]
    simp [replyStep, List.append_assoc]

/-- All rating samples of a note, in reply order then key order (the order
the summarize loop collects them). -/
def ratingSamples (note : RawNote) : List ℚ :=
  note.directReplies.flatMap ratingsOf

theorem summarize_num_reviews (note : RawNote) :
    (summarize note).num_reviews = (ratingSamples note).length := by
  show (note.directReplies.foldl replyStep (none, [])).2.length = _
  rw [foldl_replyStep_snd]
  simp [ratingSamples]

theorem summarize_avg_rating (note : RawNote) :
    (summarize note).avg_rating =
      (if ratingSamples note = [] then none
       else some ((ratingSamples note).sum / ((ratingSamples note).length : ℚ))) := by
  show (if (note.directReplies.foldl replyStep (none, [])).2.isEmpty then none
        else some ((note.directReplies.foldl replyStep (none, [])).2.sum /
          (((note.directReplies.foldl replyStep (none, [])).2.length : ℚ)))) = _
  rw [foldl_replyStep_snd]
  simp [ratingSamples, List.isEmpty_iff]

/- ---------------------------------------------------------------------
   Claims C8, C9, C10 : the normalizer
   --------------------------------------------------------------------- -/

/-- A direct reply that satisfies the decision trigger (its invitation
contains "Decision", and its sole content key case-insensitively equals
"decision") but stores the value under the key "DECISION", which the
case-sensitive probe of `decision`/`Decision`/`recommendation` misses. -/
def c8reply : Reply := ⟨"Conf2024/-/Decision", [("DECISION", Value.vStr "Accept")]⟩

/-- A note whose only direct reply is `c8reply`. -/
def c8note : RawNote := ⟨Value.vStr "f1", Value.vStr "n1", [], [c8reply]⟩

/-- C8 counterexample: the claim says a reply contributes a decision
exactly when its invitation contains "Decision" or a content key
case-insensitively equals "decision".  `c8reply` satisfies both trigger
clauses and carries the decision value "Accept", yet the summary decision
is `none`, because the value probe only consults the exact-case keys
`decision`, `Decision` and `recommendation`. -/
theorem c8_counterexample_trigger_without_value :
    decisionTrigger c8reply = true ∧ (summarize c8note).decision = none := by
  constructor
  · decide
  · decide

/-- C8 (amended): a direct reply contributes a decision iff the trigger
condition holds (invitation contains "Decision" or some content key
case-insensitively equals "decision") AND the first truthy value among
the exact-case content keys `decision`, `Decision`, `recommendation`,
after unwrapping a \x7bvalue: ...\x7d dict wrapper, is truthy; the
contribution is the `str` form of that unwrapped value, and the summary
decision is the last contribution over the direct replies. -/
theorem c8_decision_extraction :
    (∀ note : RawNote,
      (summarize note).decision = (note.directReplies.filterMap decisionOf).getLast?) ∧
    (∀ (r : Reply) (d : String),
      decisionOf r = some d ↔
        (decisionTrigger r = true ∧
          truthy (unwrapValue (decisionRaw r)) = true ∧
          d = pyStr (unwrapValue (decisionRaw r)))) := by
  constructor
  · intro note
    show (note.directReplies.foldl replyStep (none, [])).1 = _
    rw [foldl_replyStep_fst]
    cases h : (note.directReplies.filterMap decisionOf).getLast? <;> rfl
  · intro r d
    unfold decisionOf
    constructor
    · intro h
      by_cases ht : decisionTrigger r
      · simp only [ht, if_true] at h
        by_cases htr : truthy (unwrapValue (decisionRaw r))
        · simp only [htr, if_true] at h
          exact ⟨ht, htr, (Option.some_injective _ h).symm⟩
        · simp [htr] at h
      · simp [ht] at h
    · rintro ⟨ht, htr, rfl⟩
      simp [ht, htr]

/-- The worked rating example of the spec: one reply bearing the keys
"Rating" and "Soundness_Rating". -/
def c9note : RawNote :=
  ⟨Value.vStr "f2", Value.vStr "n2", [],
   [⟨"Conf2024/-/Official_Review",
     [("Rating", Value.vStr "7: Good"), ("Soundness_Rating", Value.vStr "3")]⟩]⟩

/-- C9: every direct-reply content key containing "rating"
(case-insensitively) contributes one sample parsed by `parse_rating`
(unparsable values skipped); the review count is the number of samples and
the average rating is their arithmetic mean, absent when there are none.
On the worked example the samples are [7, 3], the average 5 and the count
2; an unparsable value such as "N/A" is skipped. -/
theorem c9_rating_aggregation :
    (∀ note : RawNote,
      (summarize note).num_reviews = (ratingSamples note).length ∧
      (summarize note).avg_rating =
        (if ratingSamples note = [] then none
         else some ((ratingSamples note).sum / ((ratingSamples note).length : ℚ)))) ∧
    ratingSamples c9note = [7, 3] ∧
    (summarize c9note).avg_rating = some 5 ∧
    (summarize c9note).num_reviews = 2 ∧
    parse_rating (Value.vStr "N/A") = none := by
  refine ⟨fun note => ⟨summarize_num_reviews note, summarize_avg_rating note⟩, ?_, ?_, ?_, ?_⟩
  · decide
  · rw [summarize_avg_rating]
    have h : ratingSamples c9note = [7, 3] := by decide
    rw [h, if_neg (by decide : ¬([7, 3] : List ℚ) = [])]
    norm_num [List.sum_cons]
  · decide
  · decide

/-- C10: when a raw record has a missing, null, or empty `forum` field,
`summarize` falls back to the record's own `id` field: both the summary
forum and the summary note equal the note id value. -/
theorem c10_forum_falls_back_to_id (note : RawNote)
    (h : note.forum = Value.vNone ∨ note.forum = Value.vStr "") :
    (summarize note).forum = note.id ∧ (summarize note).note = note.id := by
  constructor
  · show pyOr note.forum note.id = note.id
    rcases h with h | h <;> simp [pyOr, truthy, h]
  · rfl

/-- Witness for C10 at a concrete record with a missing forum. -/
theorem c10_witness :
    (summarize ⟨Value.vNone, Value.vStr "note7", [], []⟩).forum = Value.vStr "note7" ∧
    (summarize ⟨Value.vNone, Value.vStr "note7", [], []⟩).note = Value.vStr "note7" :=
  c10_forum_falls_back_to_id ⟨Value.vNone, Value.vStr "note7", [], []⟩ (Or.inl rfl)

/- ---------------------------------------------------------------------
   Helper lemmas : the candidate scan of find_arxiv_match
   --------------------------------------------------------------------- -/

theorem matchLoop_exact (ratio : String -> String -> ℚ) (title nt : String) :
    ∀ (cs : List (String × String)) (best : MatchRes) (ex : Nat) (i : Nat) (hi : i < cs.length),
      normalize_title (cs.get ⟨i, hi⟩).2 = nt →
      (∀ j (hj : j < i), normalize_title (cs.get ⟨j, lt_trans hj hi⟩).2 ≠ nt) →
      matchLoop ratio title nt best ex cs =
        (⟨some (cs.get ⟨i, hi⟩).1, some (cs.get ⟨i, hi⟩).2, true, 1⟩, ex + i + 1) := by
  intro cs
  induction cs with
  | nil => intro best ex i hi; exact absurd hi (Nat.not_lt_zero i)
  | cons c rest ih =>
    intro best ex i hi hex hmin
    match i with
    | 0 =>
      show matchLoop ratio title nt best ex (c :: rest) = _
      unfold matchLoop
      have hex0 : normalize_title c.2 = nt := hex
      rw [if_pos hex0]
      rfl
    | Nat.succ k =>
      have hc : normalize_title c.2 ≠ nt := hmin 0 (Nat.succ_pos k)
      have hk : k < rest.length := by simpa using hi
      have hex2 : normalize_title (rest.get ⟨k, hk⟩).2 = nt := by
        simpa [List.get_cons_succ] using hex
      have hmin2 : ∀ j (hj : j < k), normalize_title (rest.get ⟨j, lt_trans hj hk⟩).2 ≠ nt := by
        intro j hj
        have := hmin (j + 1) (Nat.succ_lt_succ hj)
        simpa [List.get_cons_succ] using this
      unfold matchLoop
      rw [if_neg hc]
      have harith : ex + 1 + k + 1 = ex + (k + 1) + 1 := by omega
      by_cases hcmp : best.score < similarity ratio title c.2
      · simp only [hcmp, if_true]
        rw [ih _ (ex + 1) k hk hex2 hmin2, harith]
        rfl
      · simp only [hcmp, if_false]
        rw [ih best (ex + 1) k hk hex2 hmin2, harith]
        rfl

/-- One step of the fuzzy best-candidate scan: replace the best only on a
strictly greater similarity score. -/
def fuzzyStep (ratio : String -> String -> ℚ) (title : String) (b : MatchRes)
    (c : String × String) : MatchRes :=
  if b.score < similarity ratio title c.2 then
    ⟨some c.1, some c.2, false, similarity ratio title c.2⟩
  else b

theorem matchLoop_noexact (ratio : String -> String -> ℚ) (title nt : String) :
    ∀ (cs : List (String × String)) (best : MatchRes) (ex : Nat),
      (∀ c ∈ cs, normalize_title c.2 ≠ nt) →
      matchLoop ratio title nt best ex cs =
        (cs.foldl (fuzzyStep ratio title) best, ex + cs.length) := by
  intro cs
  induction cs with
  | nil => intro best ex _; rfl
  | cons c rest ih =>
    intro best ex hno
    have hc : normalize_title c.2 ≠ nt := hno c (List.mem_cons_self c rest)
    have hrest : ∀ x ∈ rest, normalize_title x.2 ≠ nt :=
      fun x hx => hno x (List.mem_cons_of_mem c hx)
    unfold matchLoop
    rw [if_neg hc]
    have harith : ex + 1 + rest.length = ex + (rest.length + 1) := by omega
    by_cases hcmp : best.score < similarity ratio title c.2
    · simp only [hcmp, if_true]
      rw [ih _ (ex + 1) hrest]
      simp only [List.foldl_cons, List.length_cons, fuzzyStep, hcmp, if_true, harith]
    · simp only [hcmp, if_false]
      rw [ih best (ex + 1) hrest]
      simp only [List.foldl_cons, List.length_cons, fuzzyStep, hcmp, if_false, harith]

theorem foldl_fuzzyStep_spec (ratio : String -> String -> ℚ) (title : String) :
    ∀ (cs : List (String × String)) (b : MatchRes),
      (∀ c ∈ cs, similarity ratio title c.2 ≤ (cs.foldl (fuzzyStep ratio title) b).score) ∧
      b.score ≤ (cs.foldl (fuzzyStep ratio title) b).score ∧
      (cs.foldl (fuzzyStep ratio title) b = b ∨
        ∃ i, ∃ hi : i < cs.length,
          cs.foldl (fuzzyStep ratio title) b =
            ⟨some (cs.get ⟨i, hi⟩).1, some (cs.get ⟨i, hi⟩).2, false,
              similarity ratio title (cs.get ⟨i, hi⟩).2⟩ ∧
          b.score < (cs.foldl (fuzzyStep ratio title) b).score ∧
          (∀ j (hj : j < i), similarity ratio title (cs.get ⟨j, lt_trans hj hi⟩).2 <
            (cs.foldl (fuzzyStep ratio title) b).score)) := by
  intro cs
  induction cs with
  | nil =>
    intro b
    exact ⟨fun c hc => absurd hc (List.not_mem_nil c), le_refl _, Or.inl rfl⟩
  | cons c rest ih =>
    intro b
    by_cases hcmp : b.score < similarity ratio title c.2
    · set b2 : MatchRes := ⟨some c.1, some c.2, false, similarity ratio title c.2⟩ with hb2
      have hfold : (c :: rest).foldl (fuzzyStep ratio title) b =
          rest.foldl (fuzzyStep ratio title) b2 := by
        simp only [List.foldl_cons, fuzzyStep, hcmp, if_true, hb2]
      obtain ⟨h1, h2, h3⟩ := ih b2
      have hb2s : b2.score = similarity ratio title c.2 := rfl
      refine ⟨?_, ?_, ?_⟩
      · intro x hx
        rw [hfold]
        rcases List.mem_cons.mp hx with hx | hx
        · rw [hx, ← hb2s]; exact h2
        · exact h1 x hx
      · rw [hfold]
        exact le_of_lt (lt_of_lt_of_le (by rw [← hb2s] at hcmp; exact hcmp) h2)
      · rw [hfold]
        rcases h3 with h3 | ⟨k, hk, heq, hlt, hstrict⟩
        · right
          refine ⟨0, by simp, ?_, ?_, ?_⟩
          · rw [h3, hb2]; rfl
          · rw [h3, hb2s]; exact hcmp
          · intro j hj; exact absurd hj (Nat.not_lt_zero j)
        · right
          have hk2 : k + 1 < (c :: rest).length := by simpa using Nat.succ_lt_succ hk
          refine ⟨k + 1, hk2, ?_, ?_, ?_⟩
          · rw [heq]; rfl
          · exact lt_trans (by rw [← hb2s] at hcmp; exact hcmp) hlt
          · intro j hj
            match j with
            | 0 =>
              show similarity ratio title c.2 < _
              exact hlt
            | Nat.succ j2 =>
              have hj2 : j2 < k := by omega
              have := hstrict j2 hj2
              simpa [List.get_cons_succ] using this
    · have hfold : (c :: rest).foldl (fuzzyStep ratio title) b =
          rest.foldl (fuzzyStep ratio title) b := by
        simp only [List.foldl_cons, fuzzyStep, hcmp, if_false]
      obtain ⟨h1, h2, h3⟩ := ih b
      refine ⟨?_, ?_, ?_⟩
      · intro x hx
        rw [hfold]
        rcases List.mem_cons.mp hx with hx | hx
        · rw [hx]; exact le_trans (le_of_not_lt hcmp) h2
        · exact h1 x hx
      · rw [hfold]; exact h2
      · rw [hfold]
        rcases h3 with h3 | ⟨k, hk, heq, hlt, hstrict⟩
        · exact Or.inl h3
        · right
          have hk2 : k + 1 < (c :: rest).length := by simpa using Nat.succ_lt_succ hk
          refine ⟨k + 1, hk2, ?_, hlt, ?_⟩
          · rw [heq]; rfl
          · intro j hj
            match j with
            | 0 =>
              show similarity ratio title c.2 < _
              exact lt_of_le_of_lt (le_of_not_lt hcmp) hlt
            | Nat.succ j2 =>
              have hj2 : j2 < k := by omega
              have := hstrict j2 hj2
              simpa [List.get_cons_succ] using this

/- ---------------------------------------------------------------------
   Claims C5, C6 : the preprint matcher
   --------------------------------------------------------------------- -/

/-- C5: if some candidate normalized title equals the normalized query
title, `find_arxiv_match` returns the first such candidate in list order
with exact = true and score = 1, and the scan examines only the candidates
up to and including it (later candidates are not evaluated). -/
theorem c5_exact_match_short_circuit (ratio : String -> String -> ℚ) (title : String)
    (cs : List (String × String)) (i : Nat) (hi : i < cs.length)
    (hex : normalize_title (cs.get ⟨i, hi⟩).2 = normalize_title title)
    (hmin : ∀ j (hj : j < i),
      normalize_title (cs.get ⟨j, lt_trans hj hi⟩).2 ≠ normalize_title title) :
    find_arxiv_match_core ratio title cs =
      (⟨some (cs.get ⟨i, hi⟩).1, some (cs.get ⟨i, hi⟩).2, true, 1⟩, i + 1) := by
  have hne : cs ≠ [] := by
    intro h
    rw [h] at hi
    exact absurd hi (Nat.not_lt_zero i)
  unfold find_arxiv_match_core
  rw [if_neg (by simpa [List.isEmpty_iff] using hne)]
  rw [matchLoop_exact ratio title (normalize_title title) cs _ 0 i hi hex hmin]
  rw [Nat.zero_add]

/-- Witness for C5: the spec example candidate list; the first candidate is
an exact normalized match and is returned after one examination. -/
theorem c5_witness :
    find_arxiv_match_core (fun _ _ => 0) "Foo Bar"
        [("1111.1111", "Foo Bar"), ("2222.2222", "foo   bar")] =
      (⟨some "1111.1111", some "Foo Bar", true, 1⟩, 1) := by
  have h := c5_exact_match_short_circuit (fun _ _ => 0) "Foo Bar"
    [("1111.1111", "Foo Bar"), ("2222.2222", "foo   bar")] 0 (by decide)
    (by decide) (fun j hj => absurd hj (Nat.not_lt_zero j))
  simpa using h

/-- C6: with no exact normalized match, `find_arxiv_match` scans all
candidates and returns the maximum-similarity one, replacing the running
best only on a strictly greater score so that ties keep the earliest
candidate; an empty candidate list, or one where every candidate scores 0,
yields no identifier and no title, exact = false, score = 0. -/
theorem c6_fuzzy_best_scan (ratio : String -> String -> ℚ) (title : String)
    (cs : List (String × String))
    (hno : ∀ c ∈ cs, normalize_title c.2 ≠ normalize_title title) :
    (cs = [] → find_arxiv_match_core ratio title cs = (⟨none, none, false, 0⟩, 0)) ∧
    ((∀ c ∈ cs, similarity ratio title c.2 = 0) →
      find_arxiv_match_core ratio title cs = (⟨none, none, false, 0⟩, cs.length)) ∧
    ((∃ c ∈ cs, 0 < similarity ratio title c.2) →
      ∃ i, ∃ hi : i < cs.length,
        find_arxiv_match_core ratio title cs =
          (⟨some (cs.get ⟨i, hi⟩).1, some (cs.get ⟨i, hi⟩).2, false,
            similarity ratio title (cs.get ⟨i, hi⟩).2⟩, cs.length) ∧
        (∀ j (hj : j < cs.length),
          similarity ratio title (cs.get ⟨j, hj⟩).2 ≤
            similarity ratio title (cs.get ⟨i, hi⟩).2) ∧
        (∀ j (hj : j < i),
          similarity ratio title (cs.get ⟨j, lt_trans hj hi⟩).2 <
            similarity ratio title (cs.get ⟨i, hi⟩).2)) := by
  refine ⟨?_, ?_, ?_⟩
  · intro h
    subst h
    rfl
  · intro hz
    cases cs with
    | nil => rfl
    | cons c rest =>
      unfold find_arxiv_match_core
      rw [if_neg (by simp)]
      rw [matchLoop_noexact ratio title (normalize_title title) (c :: rest) _ 0 hno]
      obtain ⟨h1, h2, h3⟩ := foldl_fuzzyStep_spec ratio title (c :: rest) ⟨none, none, false, 0⟩
      rcases h3 with h3 | ⟨k, hk, heq, hlt, _⟩
      · rw [h3, Nat.zero_add]
      · exfalso
        have hz0 := hz _ (List.get_mem (c :: rest) k hk)
        rw [heq] at hlt
        have hcontra : (0 : ℚ) < similarity ratio title ((c :: rest).get ⟨k, hk⟩).2 := hlt
        rw [hz0] at hcontra
        exact absurd hcontra (lt_irrefl 0)
  · rintro ⟨c0, hc0, hpos⟩
    have hne : cs ≠ [] := by
      intro h
      rw [h] at hc0
      exact absurd hc0 (List.not_mem_nil c0)
    unfold find_arxiv_match_core
    rw [if_neg (by simpa [List.isEmpty_iff] using hne)]
    rw [matchLoop_noexact ratio title (normalize_title title) cs _ 0 hno]
    obtain ⟨h1, h2, h3⟩ := foldl_fuzzyStep_spec ratio title cs ⟨none, none, false, 0⟩
    rcases h3 with h3 | ⟨k, hk, heq, hlt, hstrict⟩
    · exfalso
      have hle := h1 c0 hc0
      rw [h3] at hle
      have hle0 : similarity ratio title c0.2 ≤ (0 : ℚ) := hle
      exact absurd (lt_of_lt_of_le hpos hle0) (lt_irrefl 0)
    · refine ⟨k, hk, ?_, ?_, ?_⟩
      · rw [heq, Nat.zero_add]
      · intro j hj
        have hle := h1 (cs.get ⟨j, hj⟩) (List.get_mem cs j hj)
        rw [heq] at hle
        exact hle
      · intro j hj
        have hlt2 := hstrict j hj
        rw [heq] at hlt2
        exact hlt2

/-- Concrete candidate list for the C6 witness. -/
def c6cs : List (String × String) := [("1", "aa"), ("2", "bb")]

/-- Constant one-half ratio for the C6 witness. -/
def c6ratio : String -> String -> ℚ := fun _ _ => 1/2

/-- Witness for C6 at concrete inputs: two non-exact candidates under a
constant positive ratio. -/
theorem c6_witness :
    ∃ i, ∃ hi : i < c6cs.length,
      find_arxiv_match_core c6ratio "t" c6cs =
        (⟨some (c6cs.get ⟨i, hi⟩).1, some (c6cs.get ⟨i, hi⟩).2, false,
          similarity c6ratio "t" (c6cs.get ⟨i, hi⟩).2⟩, c6cs.length) ∧
      (∀ j (hj : j < c6cs.length),
        similarity c6ratio "t" (c6cs.get ⟨j, hj⟩).2 ≤
          similarity c6ratio "t" (c6cs.get ⟨i, hi⟩).2) ∧
      (∀ j (hj : j < i),
        similarity c6ratio "t" (c6cs.get ⟨j, lt_trans hj hi⟩).2 <
          similarity c6ratio "t" (c6cs.get ⟨i, hi⟩).2) :=
  (c6_fuzzy_best_scan c6ratio "t" c6cs (by decide)).2.2
    ⟨("1", "aa"), by decide, by norm_num [similarity, c6ratio]⟩

/- ---------------------------------------------------------------------
   Helper lemmas : pagination
   --------------------------------------------------------------------- -/

theorem fetch_notes_reqs_ne_nil {a : Type} (server : Nat -> Nat -> List a) :
    ∀ (fuel offset : Nat), 1 ≤ fuel → (fetch_notes server fuel offset).2 ≠ [] := by
  intro fuel offset h
  match fuel with
  | 0 => exact absurd h (by omega)
  | f + 1 =>
    unfold fetch_notes
    by_cases h1 : (server page_size offset).isEmpty
    · simp [h1]
    · by_cases h2 : (server page_size offset).length < page_size
      · simp [h1, h2]
      · simp [h1, h2]

theorem fetch_notes_head_req {a : Type} (server : Nat -> Nat -> List a) :
    ∀ (fuel offset : Nat) (x : Nat × Nat) (l : List (Nat × Nat)),
      (fetch_notes server fuel offset).2 = x :: l → x = (page_size, offset) := by
  intro fuel offset x l h
  match fuel with
  | 0 => simp [fetch_notes] at h
  | f + 1 =>
    unfold fetch_notes at h
    by_cases h1 : (server page_size offset).isEmpty
    · simp [h1] at h
      exact h.1.symm
    · by_cases h2 : (server page_size offset).length < page_size
      · simp [h1, h2] at h
        exact h.1.symm
      · simp [h1, h2] at h
        exact h.1.symm

theorem fetch_notes_flatten {a : Type} (server : Nat -> Nat -> List a) :
    ∀ (fuel offset : Nat),
      (fetch_notes server fuel offset).1 =
        ((fetch_notes server fuel offset).2.map (fun r => server r.1 r.2)).flatten := by
  intro fuel
  induction fuel with
  | zero => intro offset; rfl
  | succ f ih =>
    intro offset
    unfold fetch_notes
    by_cases h1 : (server page_size offset).isEmpty
    · have he := List.isEmpty_iff.mp h1
      simp [h1, he]
    · by_cases h2 : (server page_size offset).length < page_size
      · simp [h1, h2]
      · simp only [h1, h2, if_false, Bool.false_eq_true]
        simp [ih]

theorem fetch_notes_reqs_shape {a : Type} (server : Nat -> Nat -> List a) :
    ∀ (fuel offset : Nat),
      (∀ r ∈ (fetch_notes server fuel offset).2, r.1 = page_size) ∧
      List.Chain' (fun x y => y.2 = x.2 + (server x.1 x.2).length)
        (fetch_notes server fuel offset).2 := by
  intro fuel
  induction fuel with
  | zero =>
    intro offset
    exact ⟨by simp [fetch_notes], by simp [fetch_notes, List.chain'_nil]⟩
  | succ f ih =>
    intro offset
    unfold fetch_notes
    by_cases h1 : (server page_size offset).isEmpty
    · refine ⟨?_, ?_⟩ <;> simp [h1]
    · by_cases h2 : (server page_size offset).length < page_size
      · refine ⟨?_, ?_⟩ <;> simp [h1, h2]
      · obtain ⟨ihm, ihc⟩ := ih (offset + (server page_size offset).length)
        refine ⟨?_, ?_⟩
        · intro r hr
          simp only [h1, h2, if_false, Bool.false_eq_true] at hr
          simp only [List.mem_cons] at hr
          rcases hr with hr | hr
          · rw [hr]
          · exact ihm r hr
        · simp only [h1, h2, if_false, Bool.false_eq_true]
          cases hq : (fetch_notes server f (offset + (server page_size offset).length)).2 with
          | nil => simp [hq, List.chain'_singleton]
          | cons x l =>
            rw [List.chain'_cons]
            refine ⟨?_, ?_⟩
            · have hx := fetch_notes_head_req server f _ x l hq
              rw [hx]
            · rw [← hq]
              exact ihc

theorem fetch_notes_nonlast_full {a : Type} (server : Nat -> Nat -> List a) :
    ∀ (fuel offset : Nat) (r : Nat × Nat),
      r ∈ (fetch_notes server fuel offset).2.dropLast →
      page_size ≤ (server r.1 r.2).length := by
  intro fuel
  induction fuel with
  | zero => intro offset r hr; simp [fetch_notes] at hr
  | succ f ih =>
    intro offset r hr
    unfold fetch_notes at hr
    by_cases h1 : (server page_size offset).isEmpty
    · simp [h1] at hr
    · by_cases h2 : (server page_size offset).length < page_size
      · simp [h1, h2] at hr
      · simp only [h1, h2, if_false, Bool.false_eq_true] at hr
        cases hq : (fetch_notes server f (offset + (server page_size offset).length)).2 with
        | nil =>
          rw [hq, List.dropLast_single] at hr
          simp at hr
        | cons x l =>
          rw [hq, List.dropLast_cons₂, List.mem_cons] at hr
          rcases hr with hr | hr
          · rw [hr]
            exact Nat.le_of_not_lt h2
          · exact ih (offset + (server page_size offset).length) r (hq ▸ hr)

theorem fetch_notes_last_short {a : Type} (server : Nat -> Nat -> List a) :
    ∀ (fuel offset : Nat) (r : Nat × Nat),
      (fetch_notes server fuel offset).2.getLast? = some r →
      (fetch_notes server fuel offset).2.length < fuel →
      (server r.1 r.2).length < page_size := by
  intro fuel
  induction fuel with
  | zero => intro offset r h _; simp [fetch_notes] at h
  | succ f ih =>
    intro offset r h hl
    unfold fetch_notes at h hl
    by_cases h1 : (server page_size offset).isEmpty
    · simp [h1] at h
      rw [← h]
      have he := List.isEmpty_iff.mp h1
      show (server page_size offset).length < page_size
      rw [he]
      simp [page_size]
    · by_cases h2 : (server page_size offset).length < page_size
      · simp [h1, h2] at h
        rw [← h]
        exact h2
      · simp only [h1, h2, if_false, Bool.false_eq_true] at h hl
        cases hq : (fetch_notes server f (offset + (server page_size offset).length)).2 with
        | nil =>
          exfalso
          have hf : 1 ≤ f := by
            rw [hq] at hl
            simp at hl
            omega
          exact fetch_notes_reqs_ne_nil server f _ hf hq
        | cons x l =>
          rw [hq, List.getLast?_cons_cons] at h
          apply ih (offset + (server page_size offset).length) r
          · rw [hq]
            exact h
          · rw [hq] at hl ⊢
            simp at hl
            simp
            omega

/- ---------------------------------------------------------------------
   Claim C7 : pagination protocol
   --------------------------------------------------------------------- -/

/-- C7: `fetch_notes` requests pages of size 200 from offset 0, advances
the offset by the number of records each page returns, and stops exactly
when a page returns zero records or fewer than 200.  A source returning
exactly 200 records then zero causes exactly two requests; a source
returning fewer than 200 on the first page causes one request; the
collected result is the concatenation of all requested pages; every
non-final request returned a full page, and the final request (when the
loop stopped on its own) returned a short page. -/
theorem c7_pagination_protocol {a : Type} (server : Nat -> Nat -> List a) :
    (∀ fuel, 2 ≤ fuel → (server page_size 0).length = page_size →
      server page_size page_size = [] →
      fetch_notes server fuel 0 =
        (server page_size 0, [(page_size, 0), (page_size, page_size)])) ∧
    (∀ fuel, 1 ≤ fuel → (server page_size 0).length < page_size →
      fetch_notes server fuel 0 = (server page_size 0, [(page_size, 0)])) ∧
    (∀ fuel offset,
      (fetch_notes server fuel offset).1 =
        ((fetch_notes server fuel offset).2.map (fun r => server r.1 r.2)).flatten) ∧
    (∀ fuel offset,
      (∀ r ∈ (fetch_notes server fuel offset).2, r.1 = page_size) ∧
      List.Chain' (fun x y => y.2 = x.2 + (server x.1 x.2).length)
        (fetch_notes server fuel offset).2) ∧
    (∀ fuel offset (r : Nat × Nat),
      r ∈ (fetch_notes server fuel offset).2.dropLast →
      page_size ≤ (server r.1 r.2).length) ∧
    (∀ fuel offset (r : Nat × Nat),
      (fetch_notes server fuel offset).2.getLast? = some r →
      (fetch_notes server fuel offset).2.length < fuel →
      (server r.1 r.2).length < page_size) := by
  refine ⟨?_, ?_, fetch_notes_flatten server, fetch_notes_reqs_shape server,
    fetch_notes_nonlast_full server, fetch_notes_last_short server⟩
  · intro fuel h2f hlen hnext
    obtain ⟨k, rfl⟩ : ∃ k, fuel = k + 2 := ⟨fuel - 2, by omega⟩
    have hne : server page_size 0 ≠ [] := by
      intro hh
      rw [hh] at hlen
      simp [page_size] at hlen
    have h1 : ¬(server page_size 0).isEmpty = true := by
      simpa [List.isEmpty_iff] using hne
    have h2 : ¬(server page_size 0).length < page_size := by
      rw [hlen]
      exact lt_irrefl page_size
    show fetch_notes server (k + 1 + 1) 0 = _
    unfold fetch_notes
    simp only [h1, h2, if_false, Bool.false_eq_true]
    have hoff : 0 + (server page_size 0).length = page_size := by
      rw [hlen]
      omega
    rw [hoff]
    have hstep : fetch_notes server (k + 1) page_size = ([], [(page_size, page_size)]) := by
      unfold fetch_notes
      have : (server page_size page_size).isEmpty = true := by
        simp [hnext]
      simp [this]
    rw [hstep]
    simp
  · intro fuel h1f hshort
    obtain ⟨k, rfl⟩ : ∃ k, fuel = k + 1 := ⟨fuel - 1, by omega⟩
    show fetch_notes server (k + 1) 0 = _
    unfold fetch_notes
    by_cases h1 : (server page_size 0).isEmpty
    · have he := List.isEmpty_iff.mp h1
      simp [h1, he]
    · simp [h1, hshort]

set_option maxRecDepth 4000 in
/-- Witness for C7: a server with one full page at offset 0 and nothing
afterwards makes exactly two requests and collects that page; a server
with no records at all makes exactly one request. -/
theorem c7_pagination_witness :
    fetch_notes (fun _ off => if off = 0 then List.replicate 200 0 else ([] : List Nat)) 5 0 =
      (List.replicate 200 0, [(page_size, 0), (page_size, page_size)]) ∧
    fetch_notes (fun _ _ => ([] : List Nat)) 5 0 = ([], [(page_size, 0)]) := by
  constructor
  · have h := (c7_pagination_protocol
      (fun _ off => if off = 0 then List.replicate 200 0 else ([] : List Nat))).1 5
      (by omega) (by simp [page_size]) (by simp [page_size])
    simpa [page_size] using h
  · have h := (c7_pagination_protocol (fun _ _ => ([] : List Nat))).2.1 5
      (by omega) (by simp [page_size])
    simpa using h

/- ---------------------------------------------------------------------
   Helper lemmas : the match-cache policy loop
   --------------------------------------------------------------------- -/

theorem latestMatch_congr (ms1 ms2 : List MatchRec) (pid : Nat)
    (h : ms1.filter (fun m => m.paper_id == pid) = ms2.filter (fun m => m.paper_id == pid)) :
    latestMatch ms1 pid = latestMatch ms2 pid := by
  unfold latestMatch
  rw [h]

theorem latestMatch_eq_none_of_filter (ms : List MatchRec) (pid : Nat)
    (h : ms.filter (fun m => m.paper_id == pid) = []) : latestMatch ms pid = none := by
  unfold latestMatch
  rw [h]
  rfl

theorem matchMiss_inv (matcher : String -> MatchRes) (now : Int) (p : PaperRec)
    (ms : List MatchRec) (inv : List Nat) :
    (matchMiss matcher now p ms inv).2 = inv ++ [p.id] := by
  simp only [matchMiss]
  cases hc : (matcher p.title).arxiv_id with
  | none => rfl
  | some aid =>
    by_cases ha : aid = ""
    · simp [ha]
    · simp [ha]

theorem matchMiss_filter_ne (matcher : String -> MatchRes) (now : Int) (p : PaperRec)
    (ms : List MatchRec) (inv : List Nat) (x : Nat) (hx : p.id ≠ x) :
    (matchMiss matcher now p ms inv).1.filter (fun m => m.paper_id == x) =
      ms.filter (fun m => m.paper_id == x) := by
  simp only [matchMiss]
  cases hc : (matcher p.title).arxiv_id with
  | none => rfl
  | some aid =>
    by_cases ha : aid = ""
    · simp [ha]
    · simp only [ha, if_false]
      rw [List.filter_append]
      have hb : ((p.id == x : Bool)) = false := by
        simpa using hx
      simp [hb]

theorem matchMiss_noid (matcher : String -> MatchRes) (now : Int) (p : PaperRec)
    (ms : List MatchRec) (inv : List Nat)
    (h : (matcher p.title).arxiv_id = none ∨ (matcher p.title).arxiv_id = some "") :
    (matchMiss matcher now p ms inv).1 = ms := by
  simp only [matchMiss]
  rcases h with h | h <;> rw [h]
  simp

theorem matchStep1_hit (matcher : String -> MatchRes) (now deadline : Int) (p : PaperRec)
    (ms : List MatchRec) (inv : List Nat) (m : MatchRec)
    (hm : latestMatch ms p.id = some m) (hf : deadline < m.matched_at) :
    matchStep1 matcher now deadline p ms inv = (ms, inv) := by
  unfold matchStep1
  rw [hm]
  simp [hf]

theorem matchStep1_miss (matcher : String -> MatchRes) (now deadline : Int) (p : PaperRec)
    (ms : List MatchRec) (inv : List Nat)
    (h : latestMatch ms p.id = none ∨
      ∃ m, latestMatch ms p.id = some m ∧ ¬ deadline < m.matched_at) :
    matchStep1 matcher now deadline p ms inv = matchMiss matcher now p ms inv := by
  unfold matchStep1
  rcases h with h | ⟨m, hm, hf⟩
  · rw [h]
  · rw [hm]
    simp [hf]

theorem matchStep1_inv_shape (matcher : String -> MatchRes) (now deadline : Int) (p : PaperRec)
    (ms : List MatchRec) (inv : List Nat) :
    (matchStep1 matcher now deadline p ms inv).2 = inv ∨
    (matchStep1 matcher now deadline p ms inv).2 = inv ++ [p.id] := by
  unfold matchStep1
  cases latestMatch ms p.id with
  | none => exact Or.inr (matchMiss_inv matcher now p ms inv)
  | some m =>
    by_cases hf : deadline < m.matched_at
    · simp [hf]
    · simp only [hf, if_false]
      exact Or.inr (matchMiss_inv matcher now p ms inv)

theorem matchStep1_filter_ne (matcher : String -> MatchRes) (now deadline : Int) (p : PaperRec)
    (ms : List MatchRec) (inv : List Nat) (x : Nat) (hx : p.id ≠ x) :
    (matchStep1 matcher now deadline p ms inv).1.filter (fun m => m.paper_id == x) =
      ms.filter (fun m => m.paper_id == x) := by
  unfold matchStep1
  cases latestMatch ms p.id with
  | none => exact matchMiss_filter_ne matcher now p ms inv x hx
  | some m =>
    by_cases hf : deadline < m.matched_at
    · simp [hf]
    · simp only [hf, if_false]
      exact matchMiss_filter_ne matcher now p ms inv x hx

theorem matchPhaseAux_inv_append (matcher : String -> MatchRes) (now deadline : Int) :
    ∀ (papers : List PaperRec) (ms : List MatchRec) (inv : List Nat),
      ∃ ext : List Nat,
        (matchPhaseAux matcher now deadline papers ms inv).2 = inv ++ ext ∧
        ∀ y ∈ ext, ∃ q ∈ papers, q.id = y := by
  intro papers
  induction papers with
  | nil =>
    intro ms inv
    exact ⟨[], by simp [matchPhaseAux], by simp⟩
  | cons q rest ih =>
    intro ms inv
    obtain ⟨ext, heq, hmem⟩ := ih (matchStep1 matcher now deadline q ms inv).1
      (matchStep1 matcher now deadline q ms inv).2
    rcases matchStep1_inv_shape matcher now deadline q ms inv with hs | hs
    · refine ⟨ext, ?_, ?_⟩
      · show (matchPhaseAux matcher now deadline (q :: rest) ms inv).2 = inv ++ ext
        unfold matchPhaseAux
        rw [heq, hs]
      · intro y hy
        obtain ⟨q2, hq2, hq2y⟩ := hmem y hy
        exact ⟨q2, List.mem_cons_of_mem q hq2, hq2y⟩
    · refine ⟨q.id :: ext, ?_, ?_⟩
      · show (matchPhaseAux matcher now deadline (q :: rest) ms inv).2 = inv ++ (q.id :: ext)
        unfold matchPhaseAux
        rw [heq, hs]
        simp
      · intro y hy
        rcases List.mem_cons.mp hy with hy | hy
        · exact ⟨q, List.mem_cons_self q rest, hy.symm⟩
        · obtain ⟨q2, hq2, hq2y⟩ := hmem y hy
          exact ⟨q2, List.mem_cons_of_mem q hq2, hq2y⟩

theorem matchPhaseAux_frame (matcher : String -> MatchRes) (now deadline : Int) (x : Nat) :
    ∀ (papers : List PaperRec) (ms : List MatchRec) (inv : List Nat),
      (∀ q ∈ papers, q.id = x →
        ∃ m, latestMatch ms x = some m ∧ deadline < m.matched_at) →
      (matchPhaseAux matcher now deadline papers ms inv).1.filter (fun m => m.paper_id == x) =
        ms.filter (fun m => m.paper_id == x) := by
  intro papers
  induction papers with
  | nil => intro ms inv _; rfl
  | cons q rest ih =>
    intro ms inv hx
    show (matchPhaseAux matcher now deadline rest
      (matchStep1 matcher now deadline q ms inv).1
      (matchStep1 matcher now deadline q ms inv).2).1.filter (fun m => m.paper_id == x) = _
    by_cases hqx : q.id = x
    · obtain ⟨m, hm, hf⟩ := hx q (List.mem_cons_self q rest) hqx
      have hstep : matchStep1 matcher now deadline q ms inv = (ms, inv) := by
        apply matchStep1_hit matcher now deadline q ms inv m _ hf
        rw [hqx]
        exact hm
      rw [hstep]
      exact ih ms inv (fun q2 hq2 => hx q2 (List.mem_cons_of_mem q hq2))
    · have hfil := matchStep1_filter_ne matcher now deadline q ms inv x hqx
      have hx2 : ∀ q2 ∈ rest, q2.id = x →
          ∃ m, latestMatch (matchStep1 matcher now deadline q ms inv).1 x = some m ∧
            deadline < m.matched_at := by
        intro q2 hq2 hq2x
        rw [latestMatch_congr _ ms x hfil]
        exact hx q2 (List.mem_cons_of_mem q hq2) hq2x
      rw [ih _ _ hx2, hfil]

theorem matchPhaseAux_hit_not_invoked (matcher : String -> MatchRes) (now deadline : Int)
    (x : Nat) :
    ∀ (papers : List PaperRec) (ms : List MatchRec) (inv : List Nat),
      (∀ q ∈ papers, q.id = x →
        ∃ m, latestMatch ms x = some m ∧ deadline < m.matched_at) →
      x ∉ inv →
      x ∉ (matchPhaseAux matcher now deadline papers ms inv).2 := by
  intro papers
  induction papers with
  | nil => intro ms inv _ hni; exact hni
  | cons q rest ih =>
    intro ms inv hx hni
    show x ∉ (matchPhaseAux matcher now deadline rest
      (matchStep1 matcher now deadline q ms inv).1
      (matchStep1 matcher now deadline q ms inv).2).2
    by_cases hqx : q.id = x
    · obtain ⟨m, hm, hf⟩ := hx q (List.mem_cons_self q rest) hqx
      have hstep : matchStep1 matcher now deadline q ms inv = (ms, inv) := by
        apply matchStep1_hit matcher now deadline q ms inv m _ hf
        rw [hqx]
        exact hm
      rw [hstep]
      exact ih ms inv (fun q2 hq2 => hx q2 (List.mem_cons_of_mem q hq2)) hni
    · have hfil := matchStep1_filter_ne matcher now deadline q ms inv x hqx
      have hx2 : ∀ q2 ∈ rest, q2.id = x →
          ∃ m, latestMatch (matchStep1 matcher now deadline q ms inv).1 x = some m ∧
            deadline < m.matched_at := by
        intro q2 hq2 hq2x
        rw [latestMatch_congr _ ms x hfil]
        exact hx q2 (List.mem_cons_of_mem q hq2) hq2x
      have hni2 : x ∉ (matchStep1 matcher now deadline q ms inv).2 := by
        rcases matchStep1_inv_shape matcher now deadline q ms inv with hs | hs <;> rw [hs]
        · exact hni
        · simp only [List.mem_append, List.mem_singleton]
          rintro (h | h)
          · exact hni h
          · exact hqx h.symm
      exact ih _ _ hx2 hni2

theorem matchPhaseAux_miss_invoked (matcher : String -> MatchRes) (now deadline : Int)
    (x : Nat) :
    ∀ (papers : List PaperRec) (ms : List MatchRec) (inv : List Nat) (p : PaperRec),
      p ∈ papers → (papers.map (fun q => q.id)).Nodup → p.id = x →
      (latestMatch ms x = none ∨
        ∃ m, latestMatch ms x = some m ∧ ¬ deadline < m.matched_at) →
      x ∈ (matchPhaseAux matcher now deadline papers ms inv).2 := by
  intro papers
  induction papers with
  | nil => intro ms inv p hp; exact absurd hp (List.not_mem_nil p)
  | cons q rest ih =>
    intro ms inv p hp hnd hpx hmiss
    show x ∈ (matchPhaseAux matcher now deadline rest
      (matchStep1 matcher now deadline q ms inv).1
      (matchStep1 matcher now deadline q ms inv).2).2
    rcases List.mem_cons.mp hp with hpq | hp2
    · subst hpq
      have hstep : matchStep1 matcher now deadline p ms inv = matchMiss matcher now p ms inv := by
        apply matchStep1_miss
        rw [hpx]
        exact hmiss
      rw [hstep]
      obtain ⟨ext, heq, _⟩ := matchPhaseAux_inv_append matcher now deadline rest
        (matchMiss matcher now p ms inv).1 (matchMiss matcher now p ms inv).2
      rw [heq, matchMiss_inv]
      simp [hpx]
    · have hqx : q.id ≠ x := by
        intro hq
        have hq2 : q.id ∈ rest.map (fun r => r.id) := by
          rw [hq, ← hpx]
          exact List.mem_map_of_mem (fun r => r.id) hp2
        simp only [List.map_cons, List.nodup_cons] at hnd
        exact hnd.1 hq2
      have hfil := matchStep1_filter_ne matcher now deadline q ms inv x hqx
      apply ih _ _ p hp2 _ hpx
      · rw [latestMatch_congr _ ms x hfil]
        exact hmiss
      · simp only [List.map_cons, List.nodup_cons] at hnd
        exact hnd.2

theorem matchPhaseAux_miss_noinsert (matcher : String -> MatchRes) (now deadline : Int)
    (x : Nat) :
    ∀ (papers : List PaperRec) (ms : List MatchRec) (inv : List Nat) (p : PaperRec),
      p ∈ papers → (papers.map (fun q => q.id)).Nodup → p.id = x →
      (latestMatch ms x = none ∨
        ∃ m, latestMatch ms x = some m ∧ ¬ deadline < m.matched_at) →
      ((matcher p.title).arxiv_id = none ∨ (matcher p.title).arxiv_id = some "") →
      (matchPhaseAux matcher now deadline papers ms inv).1.filter (fun m => m.paper_id == x) =
        ms.filter (fun m => m.paper_id == x) := by
  intro papers
  induction papers with
  | nil => intro ms inv p hp; exact absurd hp (List.not_mem_nil p)
  | cons q rest ih =>
    intro ms inv p hp hnd hpx hmiss hnoid
    show (matchPhaseAux matcher now deadline rest
      (matchStep1 matcher now deadline q ms inv).1
      (matchStep1 matcher now deadline q ms inv).2).1.filter (fun m => m.paper_id == x) = _
    rcases List.mem_cons.mp hp with hpq | hp2
    · subst hpq
      have hstep : matchStep1 matcher now deadline p ms inv = matchMiss matcher now p ms inv := by
        apply matchStep1_miss
        rw [hpx]
        exact hmiss
      rw [hstep]
      have hms : (matchMiss matcher now p ms inv).1 = ms := matchMiss_noid matcher now p ms inv hnoid
      rw [hms]
      have hrest : ∀ q2 ∈ rest, q2.id = x →
          ∃ m, latestMatch ms x = some m ∧ deadline < m.matched_at := by
        intro q2 hq2 hq2x
        exfalso
        simp only [List.map_cons, List.nodup_cons] at hnd
        apply hnd.1
        rw [hpx, ← hq2x]
        exact List.mem_map_of_mem (fun r => r.id) hq2
      exact matchPhaseAux_frame matcher now deadline x rest ms _ hrest
    · have hqx : q.id ≠ x := by
        intro hq
        have hq2 : q.id ∈ rest.map (fun r => r.id) := by
          rw [hq, ← hpx]
          exact List.mem_map_of_mem (fun r => r.id) hp2
        simp only [List.map_cons, List.nodup_cons] at hnd
        exact hnd.1 hq2
      have hfil := matchStep1_filter_ne matcher now deadline q ms inv x hqx
      rw [ih _ _ p hp2 _ hpx _ hnoid, hfil]
      · simp only [List.map_cons, List.nodup_cons] at hnd
        exact hnd.2
      · rw [latestMatch_congr _ ms x hfil]
        exact hmiss

/- ---------------------------------------------------------------------
   Claims C3, C4 : the match cache policy
   --------------------------------------------------------------------- -/

/-- One venue, one paper, one stored match aged 13 days (cache hit case). -/
def c3paper : PaperRec := ⟨1, 1, "f", "n", "T", none, some "", some "", none, none, 0, 0⟩

/-- The venue row of the C3 boundary stores. -/
def c3venue : VenueRec := ⟨1, "V", "V", none, 0⟩

/-- A matcher returning no identifier (its result is irrelevant to C3). -/
def c3matcher : String -> MatchRes := fun _ => ⟨none, none, false, 0⟩

/-- "now" for the C3 boundary computations: day 100 in seconds. -/
def c3now : Int := 8640000

/-- Store whose only match is 13 days old (13 days = 1123200 s). -/
def c3db13 : DB := ⟨[c3venue], [c3paper], [⟨1, "a1", "T", true, 1, 7516800⟩], 2, 2⟩

/-- Store whose only match is 15 days old (15 days = 1296000 s). -/
def c3db15 : DB := ⟨[c3venue], [c3paper], [⟨1, "a1", "T", true, 1, 7344000⟩], 2, 2⟩

/-- C3: if the most recent stored match of a paper is strictly more recent
than now minus the TTL, the matcher is not invoked for it and its match
rows are unchanged; concretely, with the default 14-day TTL an ingestion
at day 100 treats a 13-day-old match as a hit (no invocation, store
unchanged) and a 15-day-old match as a miss (the matcher is invoked). -/
theorem c3_match_cache_ttl :
    (∀ (matcher : String -> MatchRes) (now ttl : Int) (papers : List PaperRec)
        (ms : List MatchRec) (p : PaperRec) (m : MatchRec),
      p ∈ papers →
      latestMatch ms p.id = some m → now - ttl < m.matched_at →
      p.id ∉ (matchPhase matcher now ttl papers ms).2 ∧
      (matchPhase matcher now ttl papers ms).1.filter (fun r => r.paper_id == p.id) =
        ms.filter (fun r => r.paper_id == p.id)) ∧
    (ingest_group c3db13 "V" none none [] true c3matcher c3now default_arxiv_ttl).invoked = [] ∧
    (ingest_group c3db13 "V" none none [] true c3matcher c3now default_arxiv_ttl).db.arxiv_matches
      = c3db13.arxiv_matches ∧
    (ingest_group c3db15 "V" none none [] true c3matcher c3now default_arxiv_ttl).invoked
      = [1] := by
  refine ⟨?_, by decide, by decide, by decide⟩
  intro matcher now ttl papers ms p m hp hm hf
  have hall : ∀ q ∈ papers, q.id = p.id →
      ∃ m2, latestMatch ms p.id = some m2 ∧ now - ttl < m2.matched_at :=
    fun _ _ _ => ⟨m, hm, hf⟩
  exact ⟨matchPhaseAux_hit_not_invoked matcher now (now - ttl) p.id papers ms [] hall
      (List.not_mem_nil p.id),
    matchPhaseAux_frame matcher now (now - ttl) p.id papers ms [] hall⟩

/-- Witness for C3 at the 13-day store: no invocation, matches unchanged. -/
theorem c3_witness :
    1 ∉ (matchPhase c3matcher c3now default_arxiv_ttl [c3paper] c3db13.arxiv_matches).2 ∧
    (matchPhase c3matcher c3now default_arxiv_ttl [c3paper] c3db13.arxiv_matches).1.filter
        (fun r => r.paper_id == 1) =
      c3db13.arxiv_matches.filter (fun r => r.paper_id == 1) :=
  c3_match_cache_ttl.1 c3matcher c3now default_arxiv_ttl [c3paper] c3db13.arxiv_matches
    c3paper ⟨1, "a1", "T", true, 1, 7516800⟩ (by decide) (by decide) (by decide)

/-- C4: on a cache miss where the matcher returns no (or an empty)
identifier, the paper is recorded as invoked but its match rows are
unchanged; when it had no stored match at all, a subsequent matching pass
(any matcher, any time, any TTL) invokes the matcher again. -/
theorem c4_no_match_not_cached
    (matcher matcher2 : String -> MatchRes) (now now2 ttl ttl2 : Int)
    (papers : List PaperRec) (ms : List MatchRec) (p : PaperRec)
    (hp : p ∈ papers) (hnd : (papers.map (fun q => q.id)).Nodup)
    (hmiss : latestMatch ms p.id = none ∨
      ∃ m, latestMatch ms p.id = some m ∧ ¬ (now - ttl < m.matched_at))
    (hnoid : (matcher p.title).arxiv_id = none ∨ (matcher p.title).arxiv_id = some "") :
    p.id ∈ (matchPhase matcher now ttl papers ms).2 ∧
    (matchPhase matcher now ttl papers ms).1.filter (fun r => r.paper_id == p.id) =
      ms.filter (fun r => r.paper_id == p.id) ∧
    (ms.filter (fun r => r.paper_id == p.id) = [] →
      p.id ∈ (matchPhase matcher2 now2 ttl2 papers (matchPhase matcher now ttl papers ms).1).2) := by
  refine ⟨?_, ?_, ?_⟩
  · exact matchPhaseAux_miss_invoked matcher now (now - ttl) p.id papers ms [] p hp hnd rfl hmiss
  · exact matchPhaseAux_miss_noinsert matcher now (now - ttl) p.id papers ms [] p hp hnd rfl
      hmiss hnoid
  · intro hempty
    have hfil : (matchPhaseAux matcher now (now - ttl) papers ms []).1.filter
        (fun r => r.paper_id == p.id) = [] := by
      rw [matchPhaseAux_miss_noinsert matcher now (now - ttl) p.id papers ms [] p hp hnd rfl
        hmiss hnoid]
      exact hempty
    exact matchPhaseAux_miss_invoked matcher2 now2 (now2 - ttl2) p.id papers _ [] p hp hnd rfl
      (Or.inl (latestMatch_eq_none_of_filter _ p.id hfil))

/-- Paper for the C4 witness. -/
def c4paper : PaperRec := ⟨1, 1, "f", "n", "T", none, some "", some "", none, none, 0, 0⟩

/-- A matcher returning no identifier, for the C4 witness. -/
def c4matcher : String -> MatchRes := fun _ => ⟨none, none, false, 0⟩

/-- Witness for C4: empty match store, no-identifier matcher; the paper is
invoked, nothing is inserted, and a second pass invokes it again. -/
theorem c4_witness :
    1 ∈ (matchPhase c4matcher 100 10 [c4paper] []).2 ∧
    (matchPhase c4matcher 100 10 [c4paper] []).1.filter (fun r => r.paper_id == 1) =
      ([] : List MatchRec).filter (fun r => r.paper_id == 1) ∧
    (([] : List MatchRec).filter (fun r => r.paper_id == 1) = [] →
      1 ∈ (matchPhase c4matcher 200 10 [c4paper]
        (matchPhase c4matcher 100 10 [c4paper] []).1).2) :=
  c4_no_match_not_cached c4matcher c4matcher 100 200 10 10 [c4paper] [] c4paper
    (by decide) (by decide) (Or.inl (by decide)) (Or.inl (by decide))

/- ---------------------------------------------------------------------
   Claim C1 : the Paper upsert key
   --------------------------------------------------------------------- -/

theorem updateFirst_eq_set (f : String) (upd : PaperRec -> PaperRec) :
    ∀ (papers : List PaperRec) (i : Nat) (hi : i < papers.length),
      (papers.get ⟨i, hi⟩).openreview_forum = f →
      (∀ j (hj : j < i), (papers.get ⟨j, lt_trans hj hi⟩).openreview_forum ≠ f) →
      updateFirst f upd papers = papers.set i (upd (papers.get ⟨i, hi⟩)) := by
  intro papers
  induction papers with
  | nil => intro i hi; exact absurd hi (Nat.not_lt_zero i)
  | cons p ps ih =>
    intro i hi hex hmin
    match i with
    | 0 =>
      show updateFirst f upd (p :: ps) = _
      unfold updateFirst
      have hex0 : p.openreview_forum = f := hex
      rw [if_pos hex0]
      rfl
    | Nat.succ k =>
      have hp : p.openreview_forum ≠ f := hmin 0 (Nat.succ_pos k)
      have hk : k < ps.length := by simpa using hi
      have hex2 : (ps.get ⟨k, hk⟩).openreview_forum = f := by
        simpa [List.get_cons_succ] using hex
      have hmin2 : ∀ j (hj : j < k), (ps.get ⟨j, lt_trans hj hk⟩).openreview_forum ≠ f := by
        intro j hj
        have := hmin (j + 1) (Nat.succ_lt_succ hj)
        simpa [List.get_cons_succ] using this
      show updateFirst f upd (p :: ps) = _
      unfold updateFirst
      rw [if_neg hp]
      rw [ih k hk hex2 hmin2]
      rfl

/-- The pre-existing paper of venue 1 in the C1 counterexample store. -/
def c1paperOld : PaperRec := ⟨1, 1, "f", "n1", "Old", none, some "", some "", none, none, 0, 0⟩

/-- A store with two venues, A (id 1) and B (id 2); venue 1 owns the only
paper, with forum "f". -/
def c1db : DB := ⟨[⟨1, "A", "A", none, 0⟩, ⟨2, "B", "B", none, 0⟩], [c1paperOld], [], 3, 2⟩

/-- A summary with the same forum id "f", ingested for venue B. -/
def c1summary : Summary := ⟨"f", "n2", "New", none, "", [], none, none, 0⟩

/-- The result of ingesting that summary into venue B. -/
def c1result : IngestResult :=
  ingest_group c1db "B" none none [c1summary] false (fun _ => ⟨none, none, false, 0⟩)
    100 default_arxiv_ttl

/-- C1 counterexample: ingesting forum "f" for venue B finds venue 1
paper (the upsert query filters on forum only), overwrites it in place
(title "Old" becomes "New", still owned by venue 1), and creates no Paper
for (venue 2, forum "f") — so a paper belonging to a different venue with
the same forum id IS affected, and the store does not hold one Paper per
(venue, forum) pair. -/
theorem c1_counterexample_cross_venue_update :
    c1db.papers.map (fun p => p.title) = ["Old"] ∧
    c1result.db.papers.filter (fun p => p.venue_id == 2) = [] ∧
    c1result.db.papers.map (fun p => p.title) = ["New"] ∧
    c1result.db.papers.map (fun p => p.venue_id) = [1] := by
  refine ⟨by decide, by decide, by decide, by decide⟩

/-- C1 (amended): the upsert of ingest.py step 2 is keyed by forum id
alone, not by the (venue, forum) pair.  If no paper with the summary
forum exists, a fresh row is appended for the ingesting venue; otherwise
the first paper with that forum — in whatever venue — is overwritten in
place, its id, venue, forum and note id unchanged and `last_refreshed`
bumped. -/
theorem c1_upsert_keyed_by_forum_only (vid : Nat) (now : Int) (papers : List PaperRec)
    (nid : Nat) (s : Summary) :
    ((∀ p ∈ papers, p.openreview_forum ≠ s.forum) →
      upsertAll vid now papers nid [s] = (papers ++ [mkPaper vid nid s now], nid + 1)) ∧
    (∀ i (hi : i < papers.length),
      (papers.get ⟨i, hi⟩).openreview_forum = s.forum →
      (∀ j (hj : j < i), (papers.get ⟨j, lt_trans hj hi⟩).openreview_forum ≠ s.forum) →
      upsertAll vid now papers nid [s] =
        (papers.set i (overwrite (papers.get ⟨i, hi⟩) s now), nid)) ∧
    (∀ p : PaperRec,
      (overwrite p s now).id = p.id ∧
      (overwrite p s now).venue_id = p.venue_id ∧
      (overwrite p s now).openreview_forum = p.openreview_forum ∧
      (overwrite p s now).openreview_note = p.openreview_note ∧
      (overwrite p s now).last_refreshed = now) := by
  refine ⟨?_, ?_, fun p => ⟨rfl, rfl, rfl, rfl, rfl⟩⟩
  · intro h
    have hany : papers.any (fun p => p.openreview_forum == s.forum) = false := by
      rw [List.any_eq_false]
      intro p hp
      simpa using h p hp
    show upsertAll vid now papers nid [s] = _
    unfold upsertAll
    rw [hany]
    rfl
  · intro i hi hex hmin
    have hany : papers.any (fun p => p.openreview_forum == s.forum) = true := by
      rw [List.any_eq_true]
      exact ⟨papers.get ⟨i, hi⟩, List.get_mem papers i hi, by simpa using hex⟩
    show upsertAll vid now papers nid [s] = _
    unfold upsertAll
    rw [hany]
    simp only [if_true]
    rw [updateFirst_eq_set s.forum (fun p => overwrite p s now) papers i hi hex hmin]
    rfl

/-- Witness for C1 (amended) at concrete inputs: the lone paper with
matching forum is overwritten in place. -/
theorem c1_upsert_witness :
    upsertAll 2 100 [c1paperOld] 5 [c1summary] = ([overwrite c1paperOld c1summary 100], 5) :=
  (c1_upsert_keyed_by_forum_only 2 100 [c1paperOld] 5 c1summary).2.1 0 (by decide) (by decide)
    (fun j hj => absurd hj (Nat.not_lt_zero j))

/- ---------------------------------------------------------------------
   Helper lemmas : double ingestion (claim C2)
   --------------------------------------------------------------------- -/

/-- The forum column of a paper list, in row order. -/
def forums (papers : List PaperRec) : List String :=
  papers.map (fun p => p.openreview_forum)

/-- The last summary in `subs` carrying forum `f`, if any: the summary
whose data the upsert loop leaves in the store for that forum. -/
def lastWith (subs : List Summary) (f : String) : Option Summary :=
  (subs.filter (fun s => s.forum == f)).getLast?

/-- The denormalized data fields of a paper agree with a summary. -/
def DataEq (p : PaperRec) (s : Summary) : Prop :=
  p.title = s.title ∧ p.abstract = s.abstract ∧ p.authors = some s.authors ∧
  p.keywords = some (joinKeywords s.keywords) ∧ p.decision = s.decision ∧
  p.avg_rating = s.avg_rating ∧ p.num_reviews = s.num_reviews

theorem forums_cons (p : PaperRec) (ps : List PaperRec) :
    forums (p :: ps) = p.openreview_forum :: forums ps := rfl

theorem forums_append (ps qs : List PaperRec) :
    forums (ps ++ qs) = forums ps ++ forums qs := by
  simp [forums]

theorem overwrite_overwrite (p : PaperRec) (s1 s2 : Summary) (n1 n2 : Int) :
    overwrite (overwrite p s1 n1) s2 n2 = overwrite p s2 n2 := rfl

theorem overwrite_refresh (p : PaperRec) (s : Summary) (now : Int) (h : DataEq p s) :
    overwrite p s now = { p with last_refreshed := now } := by
  obtain ⟨h1, h2, h3, h4, h5, h6, h7⟩ := h
  simp [overwrite, h1, h2, h3, h4, h5, h6, h7]

theorem getLast?_mem_of_eq {b : Type} {l : List b} {x : b} (h : l.getLast? = some x) :
    x ∈ l := by
  obtain ⟨hne, hx⟩ := List.mem_getLast?_eq_getLast (by rw [Option.mem_def]; exact h)
  rw [hx]
  exact List.getLast_mem hne

theorem lastWith_mem {subs : List Summary} {f : String} {s : Summary}
    (h : lastWith subs f = some s) : s ∈ subs ∧ s.forum = f := by
  have hmem := getLast?_mem_of_eq h
  rw [List.mem_filter] at hmem
  exact ⟨hmem.1, by simpa using hmem.2⟩

theorem lastWith_cons_some {rest : List Summary} {f : String} {s2 : Summary} (s : Summary)
    (h : lastWith rest f = some s2) : lastWith (s :: rest) f = some s2 := by
  unfold lastWith at h ⊢
  rw [List.filter_cons]
  by_cases hf : (s.forum == f) = true
  · rw [if_pos hf, getLast?_cons_eq, h]
  · rw [if_neg hf]
    exact h

theorem lastWith_cons_none_self {rest : List Summary} {f : String} {s : Summary}
    (h : lastWith rest f = none) (hf : s.forum = f) : lastWith (s :: rest) f = some s := by
  unfold lastWith at h ⊢
  rw [List.filter_cons, if_pos (by simpa using hf), getLast?_cons_eq, h]

theorem lastWith_cons_ne {rest : List Summary} {f : String} {s : Summary}
    (hf : s.forum ≠ f) : lastWith (s :: rest) f = lastWith rest f := by
  unfold lastWith
  rw [List.filter_cons, if_neg (by simpa using hf)]

theorem lastWith_concat_self (u : List Summary) (s : Summary) {f : String} (hf : s.forum = f) :
    lastWith (u ++ [s]) f = some s := by
  unfold lastWith
  rw [List.filter_append, List.filter_cons, if_pos (by simpa using hf)]
  simp [List.getLast?_concat]

theorem lastWith_concat_ne (u : List Summary) (s : Summary) {f : String} (hf : s.forum ≠ f) :
    lastWith (u ++ [s]) f = lastWith u f := by
  unfold lastWith
  rw [List.filter_append, List.filter_cons, if_neg (by simpa using hf)]
  simp

theorem updateFirst_map_forum (f : String) (upd : PaperRec -> PaperRec)
    (hupd : ∀ p, (upd p).openreview_forum = p.openreview_forum) :
    ∀ papers, forums (updateFirst f upd papers) = forums papers := by
  intro papers
  induction papers with
  | nil => rfl
  | cons p ps ih =>
    show forums (updateFirst f upd (p :: ps)) = _
    unfold updateFirst
    by_cases hp : p.openreview_forum = f
    · rw [if_pos hp, forums_cons, forums_cons, hupd]
    · rw [if_neg hp, forums_cons, forums_cons, ih]

theorem updateFirst_eq_map_of_nodup (f : String) (upd : PaperRec -> PaperRec) :
    ∀ papers : List PaperRec, (forums papers).Nodup →
      updateFirst f upd papers =
        papers.map (fun p => if p.openreview_forum = f then upd p else p) := by
  intro papers
  induction papers with
  | nil => intro _; rfl
  | cons p ps ih =>
    intro hnd
    rw [forums_cons, List.nodup_cons] at hnd
    show updateFirst f upd (p :: ps) = _
    unfold updateFirst
    by_cases hp : p.openreview_forum = f
    · rw [if_pos hp]
      have hrest : ps.map (fun q => if q.openreview_forum = f then upd q else q) = ps := by
        have hid : ∀ q ∈ ps, (if q.openreview_forum = f then upd q else q) = q := by
          intro q hq
          have hqf : q.openreview_forum ≠ f := by
            intro hh
            exact hnd.1 (by rw [hp, ← hh]; exact List.mem_map_of_mem _ hq)
          rw [if_neg hqf]
        rw [List.map_congr_left hid, List.map_id']
      simp [hp, hrest]
    · rw [if_neg hp, ih hnd.2]
      simp [hp]

theorem upsertAll_cons (vid : Nat) (now : Int) (papers : List PaperRec) (nid : Nat)
    (s : Summary) (rest : List Summary) :
    upsertAll vid now papers nid (s :: rest) =
      upsertAll vid now (upsertAll vid now papers nid [s]).1
        (upsertAll vid now papers nid [s]).2 rest := by
  by_cases hc : (papers.any fun p => p.openreview_forum == s.forum) = true
  · have h1 : upsertAll vid now papers nid [s] =
        (updateFirst s.forum (fun p => overwrite p s now) papers, nid) := by
      unfold upsertAll
      rw [if_pos hc]
      rfl
    rw [h1]
    conv_lhs => unfold upsertAll
    rw [if_pos hc]
  · have h1 : upsertAll vid now papers nid [s] =
        (papers ++ [mkPaper vid nid s now], nid + 1) := by
      unfold upsertAll
      rw [if_neg hc]
      rfl
    rw [h1]
    conv_lhs => unfold upsertAll
    rw [if_neg hc]

theorem upsertAll_forums_sup (vid : Nat) (now : Int) :
    ∀ (subs : List Summary) (papers : List PaperRec) (nid : Nat) (f : String),
      (f ∈ forums papers ∨ ∃ s ∈ subs, s.forum = f) →
      f ∈ forums (upsertAll vid now papers nid subs).1 := by
  intro subs
  induction subs with
  | nil =>
    intro papers nid f h
    rcases h with h | ⟨s, hs, _⟩
    · exact h
    · exact absurd hs (List.not_mem_nil s)
  | cons s rest ih =>
    intro papers nid f h
    rw [upsertAll_cons]
    by_cases hc : papers.any (fun p => p.openreview_forum == s.forum)
    · have hstep : (upsertAll vid now papers nid [s]).1 =
          updateFirst s.forum (fun p => overwrite p s now) papers := by
        unfold upsertAll
        rw [if_pos hc]
        rfl
      have hforums : forums (upsertAll vid now papers nid [s]).1 = forums papers := by
        rw [hstep]
        exact updateFirst_map_forum s.forum (fun p => overwrite p s now) (fun p => rfl) papers
      apply ih
      rcases h with h | ⟨s2, hs2, hs2f⟩
      · left
        rw [hforums]
        exact h
      · rcases List.mem_cons.mp hs2 with hh | hh
        · left
          rw [hforums]
          rw [List.any_eq_true] at hc
          obtain ⟨p, hp, hpf⟩ := hc
          rw [← hs2f, hh]
          have hpf2 : p.openreview_forum = s.forum := by simpa using hpf
          rw [← hpf2]
          exact List.mem_map_of_mem _ hp
        · right
          exact ⟨s2, hh, hs2f⟩
    · have hstep : (upsertAll vid now papers nid [s]).1 =
          papers ++ [mkPaper vid nid s now] := by
        unfold upsertAll
        rw [if_neg hc]
        rfl
      apply ih
      rcases h with h | ⟨s2, hs2, hs2f⟩
      · left
        rw [hstep, forums_append]
        exact List.mem_append_left _ h
      · rcases List.mem_cons.mp hs2 with hh | hh
        · left
          rw [hstep, forums_append]
          apply List.mem_append_right
          rw [← hs2f, hh]
          exact List.mem_singleton_self _
        · right
          exact ⟨s2, hh, hs2f⟩

theorem upsertAll_map_of_covered (vid : Nat) (now : Int) :
    ∀ (subs : List Summary) (papers : List PaperRec) (nid : Nat),
      (forums papers).Nodup →
      (∀ s ∈ subs, ∃ p ∈ papers, p.openreview_forum = s.forum) →
      upsertAll vid now papers nid subs =
        (papers.map (fun p =>
          match lastWith subs p.openreview_forum with
          | some s => overwrite p s now
          | none => p), nid) := by
  intro subs
  induction subs with
  | nil =>
    intro papers nid _ _
    have hmap : papers.map (fun p =>
        match lastWith ([] : List Summary) p.openreview_forum with
        | some s => overwrite p s now
        | none => p) = papers := by
      have hid : ∀ p ∈ papers, (match lastWith ([] : List Summary) p.openreview_forum with
          | some s => overwrite p s now | none => p) = p := fun p _ => rfl
      rw [List.map_congr_left hid, List.map_id']
    rw [hmap]
    rfl
  | cons s rest ih =>
    intro papers nid hnd hsub
    obtain ⟨p0, hp0, hp0f⟩ := hsub s (List.mem_cons_self s rest)
    have hc : (papers.any fun p => p.openreview_forum == s.forum) = true := by
      rw [List.any_eq_true]
      exact ⟨p0, hp0, by simpa using hp0f⟩
    rw [upsertAll_cons]
    have h1 : upsertAll vid now papers nid [s] =
        (updateFirst s.forum (fun p => overwrite p s now) papers, nid) := by
      unfold upsertAll
      rw [if_pos hc]
      rfl
    rw [h1]
    have hforums : forums (updateFirst s.forum (fun p => overwrite p s now) papers)
        = forums papers :=
      updateFirst_map_forum s.forum (fun p => overwrite p s now) (fun p => rfl) papers
    have hmap1 := updateFirst_eq_map_of_nodup s.forum (fun p => overwrite p s now) papers hnd
    have hnd2 : (forums (updateFirst s.forum (fun p => overwrite p s now) papers)).Nodup := by
      rw [hforums]
      exact hnd
    have hsub2 : ∀ s2 ∈ rest, ∃ p ∈ updateFirst s.forum (fun p => overwrite p s now) papers,
        p.openreview_forum = s2.forum := by
      intro s2 hs2
      obtain ⟨p, hp, hpf⟩ := hsub s2 (List.mem_cons_of_mem s hs2)
      rw [hmap1]
      refine ⟨(fun q => if q.openreview_forum = s.forum then overwrite q s now else q) p,
        List.mem_map_of_mem _ hp, ?_⟩
      show (if p.openreview_forum = s.forum then overwrite p s now
        else p).openreview_forum = s2.forum
      by_cases hq : p.openreview_forum = s.forum
      · rw [if_pos hq]
        show p.openreview_forum = s2.forum
        exact hpf
      · rw [if_neg hq]
        exact hpf
    rw [ih _ nid hnd2 hsub2, hmap1, List.map_map]
    have hpt : ∀ p ∈ papers,
        ((fun q => match lastWith rest q.openreview_forum with
            | some s2 => overwrite q s2 now
            | none => q) ∘
          (fun q => if q.openreview_forum = s.forum then overwrite q s now else q)) p =
        (match lastWith (s :: rest) p.openreview_forum with
          | some s2 => overwrite p s2 now
          | none => p) := by
      intro p hp
      show (fun q => match lastWith rest q.openreview_forum with
            | some s2 => overwrite q s2 now
            | none => q)
          (if p.openreview_forum = s.forum then overwrite p s now else p) = _
      by_cases hq : p.openreview_forum = s.forum
      · rw [if_pos hq]
        show (match lastWith rest p.openreview_forum with
              | some s2 => overwrite (overwrite p s now) s2 now
              | none => overwrite p s now) = _
        cases hlast : lastWith rest p.openreview_forum with
        | some s2 =>
          show overwrite (overwrite p s now) s2 now = _
          rw [overwrite_overwrite, lastWith_cons_some s hlast]
        | none =>
          show overwrite p s now = _
          rw [lastWith_cons_none_self hlast hq.symm]
      · rw [if_neg hq]
        show (match lastWith rest p.openreview_forum with
              | some s2 => overwrite p s2 now
              | none => p) = _
        rw [lastWith_cons_ne (fun hh => hq hh.symm)]
    rw [List.map_congr_left hpt]

/-- Invariant of the first-call upsert loop: after processing the prefix
`u` of the submissions starting from an empty table, forums are distinct
and every row carries the data of the last summary of `u` with its forum,
stamped with this call time and venue. -/
def GoodAt (vid : Nat) (now : Int) (u : List Summary) (papers : List PaperRec) : Prop :=
  (forums papers).Nodup ∧
  ∀ p ∈ papers, ∃ s, lastWith u p.openreview_forum = some s ∧ DataEq p s ∧
    p.last_refreshed = now ∧ p.venue_id = vid

theorem GoodAt_step (vid : Nat) (now : Int) (u : List Summary) (papers : List PaperRec)
    (s : Summary) (nid : Nat) (h : GoodAt vid now u papers) :
    GoodAt vid now (u ++ [s]) (upsertAll vid now papers nid [s]).1 := by
  obtain ⟨hnd, hgood⟩ := h
  by_cases hc : (papers.any fun p => p.openreview_forum == s.forum) = true
  · have h1 : (upsertAll vid now papers nid [s]).1 =
        updateFirst s.forum (fun p => overwrite p s now) papers := by
      unfold upsertAll
      rw [if_pos hc]
      rfl
    have hmap1 := updateFirst_eq_map_of_nodup s.forum (fun p => overwrite p s now) papers hnd
    constructor
    · rw [h1, updateFirst_map_forum s.forum (fun p => overwrite p s now) (fun p => rfl) papers]
      exact hnd
    · intro p2 hp2
      rw [h1, hmap1, List.mem_map] at hp2
      obtain ⟨p, hp, hpeq0⟩ := hp2
      replace hpeq : (if p.openreview_forum = s.forum then overwrite p s now else p) = p2 := hpeq0
      by_cases hq : p.openreview_forum = s.forum
      · rw [if_pos hq] at hpeq
        refine ⟨s, ?_, ?_, ?_, ?_⟩
        · rw [← hpeq]
          show lastWith (u ++ [s]) p.openreview_forum = some s
          rw [hq]
          exact lastWith_concat_self u s rfl
        · rw [← hpeq]
          exact ⟨rfl, rfl, rfl, rfl, rfl, rfl, rfl⟩
        · rw [← hpeq]
          rfl
        · rw [← hpeq]
          show p.venue_id = vid
          obtain ⟨s0, _, _, _, hv⟩ := hgood p hp
          exact hv
      · rw [if_neg hq] at hpeq
        subst hpeq
        obtain ⟨s0, hs0, hdata, href, hv⟩ := hgood p hp
        exact ⟨s0, by rw [lastWith_concat_ne u s (fun hh => hq hh.symm)]; exact hs0,
          hdata, href, hv⟩
  · have h1 : (upsertAll vid now papers nid [s]).1 = papers ++ [mkPaper vid nid s now] := by
      unfold upsertAll
      rw [if_neg hc]
      rfl
    rw [Bool.not_eq_true, List.any_eq_false] at hc
    have hnotin : s.forum ∉ forums papers := by
      intro hmem
      rw [forums, List.mem_map] at hmem
      obtain ⟨p, hp, hpf⟩ := hmem
      exact hc p hp (by simpa using hpf)
    constructor
    · rw [h1, forums_append, List.nodup_append]
      refine ⟨hnd, by simp [forums], ?_⟩
      intro f hf hf2
      have hfs : f = s.forum := by simpa [forums] using hf2
      exact hnotin (hfs ▸ hf)
    · intro p2 hp2
      rw [h1] at hp2
      rcases List.mem_append.mp hp2 with hp | hp
      · obtain ⟨s0, hs0, hdata, href, hv⟩ := hgood p2 hp
        have hne : p2.openreview_forum ≠ s.forum := by
          intro hh
          exact hnotin (hh ▸ List.mem_map_of_mem _ hp)
        exact ⟨s0, by rw [lastWith_concat_ne u s (fun hh => hne hh.symm)]; exact hs0,
          hdata, href, hv⟩
      · rw [List.mem_singleton] at hp
        subst hp
        refine ⟨s, ?_, ⟨rfl, rfl, rfl, rfl, rfl, rfl, rfl⟩, rfl, rfl⟩
        show lastWith (u ++ [s]) s.forum = some s
        exact lastWith_concat_self u s rfl

theorem GoodAt_fold (vid : Nat) (now : Int) :
    ∀ (rest u : List Summary) (papers : List PaperRec) (nid : Nat),
      GoodAt vid now u papers →
      GoodAt vid now (u ++ rest) (upsertAll vid now papers nid rest).1 := by
  intro rest
  induction rest with
  | nil =>
    intro u papers nid h
    rw [List.append_nil]
    exact h
  | cons s rest2 ih =>
    intro u papers nid h
    rw [upsertAll_cons]
    have hstep := GoodAt_step vid now u papers s nid h
    have hrec := ih (u ++ [s]) (upsertAll vid now papers nid [s]).1
      (upsertAll vid now papers nid [s]).2 hstep
    simpa [List.append_assoc] using hrec

/- ---------------------------------------------------------------------
   Claim C2 : double ingestion is idempotent up to last_refreshed
   --------------------------------------------------------------------- -/

/-- C2: ingesting the same group id twice from an empty store with the
same submissions yields exactly one Venue row for the group id (unchanged
by the second call) and one Paper row per distinct forum id of the data;
the second call maps every paper to itself with only `last_refreshed`
advanced to the later call time, and allocates no new row ids. -/
theorem c2_double_ingest (group_id : String) (name : Option String) (year : Option Int)
    (subs : List Summary) (wa1 wa2 : Bool) (matcher1 matcher2 : String -> MatchRes)
    (now1 now2 ttl1 ttl2 : Int) (r1 r2 : IngestResult)
    (h1 : r1 = ingest_group emptyDB group_id name year subs wa1 matcher1 now1 ttl1)
    (h2 : r2 = ingest_group r1.db group_id name year subs wa2 matcher2 now2 ttl2)
    (h12 : now1 < now2) :
    (r2.db.venues.filter (fun v => v.group_id == group_id)).length = 1 ∧
    r2.db.venues = r1.db.venues ∧
    r2.db.papers = r1.db.papers.map (fun p => { p with last_refreshed := now2 }) ∧
    (forums r2.db.papers).Nodup ∧
    (∀ f, f ∈ forums r2.db.papers ↔ ∃ s ∈ subs, s.forum = f) ∧
    (∀ p ∈ r1.db.papers, p.last_refreshed = now1) ∧
    (∀ p ∈ r2.db.papers, p.last_refreshed = now2 ∧ now1 < p.last_refreshed) ∧
    r2.db.next_paper_id = r1.db.next_paper_id := by
  subst h1
  subst h2
  have hsh1 : (ingest_group emptyDB group_id name year subs wa1 matcher1 now1 ttl1).db.venues
        = [⟨1, group_id, defaultName name group_id, year, now1⟩] ∧
      (ingest_group emptyDB group_id name year subs wa1 matcher1 now1 ttl1).db.papers
        = (upsertAll 1 now1 [] 1 subs).1 ∧
      (ingest_group emptyDB group_id name year subs wa1 matcher1 now1 ttl1).db.next_paper_id
        = (upsertAll 1 now1 [] 1 subs).2 := by
    cases wa1 <;> exact ⟨rfl, rfl, rfl⟩
  obtain ⟨hv1, hp1, hn1⟩ := hsh1
  have hfind : ((ingest_group emptyDB group_id name year subs wa1 matcher1 now1 ttl1).db.venues.find?
      (fun v => v.group_id == group_id))
      = some ⟨1, group_id, defaultName name group_id, year, now1⟩ := by
    rw [hv1]
    simp [List.find?]
  have hshape2 : ∀ (db1 : DB) (wa : Bool) (m : String -> MatchRes) (nw tl : Int),
      db1.venues.find? (fun v => v.group_id == group_id)
        = some ⟨1, group_id, defaultName name group_id, year, now1⟩ →
      (ingest_group db1 group_id name year subs wa m nw tl).db.venues = db1.venues ∧
      (ingest_group db1 group_id name year subs wa m nw tl).db.papers
        = (upsertAll 1 nw db1.papers db1.next_paper_id subs).1 ∧
      (ingest_group db1 group_id name year subs wa m nw tl).db.next_paper_id
        = (upsertAll 1 nw db1.papers db1.next_paper_id subs).2 := by
    intro db1 wa m nw tl hf
    cases wa <;> simp only [ingest_group, hf] <;> exact ⟨rfl, rfl, rfl⟩
  obtain ⟨hv2, hp2, hn2⟩ := hshape2
    (ingest_group emptyDB group_id name year subs wa1 matcher1 now1 ttl1).db
    wa2 matcher2 now2 ttl2 hfind
  have hGood : GoodAt 1 now1 subs (upsertAll 1 now1 [] 1 subs).1 := by
    have h0 : GoodAt 1 now1 [] [] :=
      ⟨List.nodup_nil, fun p hp => absurd hp (List.not_mem_nil p)⟩
    have hfold := GoodAt_fold 1 now1 subs [] [] 1 h0
    simpa using hfold
  obtain ⟨hnd1, hgood1⟩ := hGood
  have hsub : ∀ s2 ∈ subs, ∃ p ∈ (upsertAll 1 now1 [] 1 subs).1,
      p.openreview_forum = s2.forum := by
    intro s2 hs2
    have hm := upsertAll_forums_sup 1 now1 subs [] 1 s2.forum (Or.inr ⟨s2, hs2, rfl⟩)
    rw [forums, List.mem_map] at hm
    obtain ⟨p, hp, hpf⟩ := hm
    exact ⟨p, hp, hpf⟩
  have hmap2 := upsertAll_map_of_covered 1 now2 subs (upsertAll 1 now1 [] 1 subs).1
    (upsertAll 1 now1 [] 1 subs).2 hnd1 hsub
  have hpt : ∀ p ∈ (upsertAll 1 now1 [] 1 subs).1,
      (match lastWith subs p.openreview_forum with
       | some s2 => overwrite p s2 now2
       | none => p) = { p with last_refreshed := now2 } := by
    intro p hp
    obtain ⟨s0, hs0, hdata, _, _⟩ := hgood1 p hp
    rw [hs0]
    exact overwrite_refresh p s0 now2 hdata
  have hpapers2 : (ingest_group (ingest_group emptyDB group_id name year subs wa1 matcher1
        now1 ttl1).db group_id name year subs wa2 matcher2 now2 ttl2).db.papers
      = (upsertAll 1 now1 [] 1 subs).1.map (fun p => { p with last_refreshed := now2 }) := by
    rw [hp2, hp1, hn1, hmap2]
    exact List.map_congr_left hpt
  have hforums_pres : forums ((upsertAll 1 now1 [] 1 subs).1.map
      (fun p => { p with last_refreshed := now2 })) = forums (upsertAll 1 now1 [] 1 subs).1 := by
    rw [forums, forums, List.map_map]
    exact List.map_congr_left (fun p _ => rfl)
  refine ⟨?_, hv2, ?_, ?_, ?_, ?_, ?_, ?_⟩
  · rw [hv2, hv1]
    simp
  · rw [hpapers2, hp1]
  · rw [hpapers2, hforums_pres]
    exact hnd1
  · intro f
    rw [hpapers2, hforums_pres]
    constructor
    · intro hf
      rw [forums, List.mem_map] at hf
      obtain ⟨p, hp, hpf⟩ := hf
      obtain ⟨s0, hs0, _, _, _⟩ := hgood1 p hp
      obtain ⟨hs0mem, hs0f⟩ := lastWith_mem hs0
      exact ⟨s0, hs0mem, by rw [hs0f, hpf]⟩
    · rintro ⟨s2, hs2, hs2f⟩
      exact upsertAll_forums_sup 1 now1 subs [] 1 f (Or.inr ⟨s2, hs2, hs2f⟩)
  · intro p hp
    rw [hp1] at hp
    obtain ⟨_, _, _, href, _⟩ := hgood1 p hp
    exact href
  · intro p hp
    rw [hpapers2, List.mem_map] at hp
    obtain ⟨q, hq, hqe⟩ := hp
    rw [← hqe]
    exact ⟨rfl, h12⟩
  · rw [hn2, hp1, hn1, hmap2]

/-- Submissions for the C2 witness. -/
def c2subs : List Summary :=
  [⟨"f1", "n1", "T1", none, "A; B", ["k"], some "Accept", some 5, 2⟩]

/-- Trivial matcher for the C2 witness. -/
def c2m : String -> MatchRes := fun _ => ⟨none, none, false, 0⟩

/-- First ingestion of the C2 witness, at time 10. -/
def c2r1 : IngestResult := ingest_group emptyDB "V" none none c2subs false c2m 10 100

/-- Second ingestion of the C2 witness, at time 20. -/
def c2r2 : IngestResult := ingest_group c2r1.db "V" none none c2subs false c2m 20 100

/-- Witness for C2 at a concrete one-submission store. -/
theorem c2_witness :
    (c2r2.db.venues.filter (fun v => v.group_id == "V")).length = 1 ∧
    c2r2.db.venues = c2r1.db.venues ∧
    c2r2.db.papers = c2r1.db.papers.map (fun p => { p with last_refreshed := 20 }) ∧
    (forums c2r2.db.papers).Nodup ∧
    (∀ f, f ∈ forums c2r2.db.papers ↔ ∃ s ∈ c2subs, s.forum = f) ∧
    (∀ p ∈ c2r1.db.papers, p.last_refreshed = 10) ∧
    (∀ p ∈ c2r2.db.papers, p.last_refreshed = 20 ∧ (10 : Int) < p.last_refreshed) ∧
    c2r2.db.next_paper_id = c2r1.db.next_paper_id :=
  c2_double_ingest "V" none none c2subs false false c2m c2m 10 20 100 100 c2r1 c2r2
    rfl rfl (by omega)
